import Mathlib

/-!
Formal model of `omw_shuffle_ingredients.py`.

The program reads OpenMW/Morrowind plugin files as sequences of tagged,
length-prefixed binary records, decodes header (`TES3`), ingredient (`INGR`)
and leveled-list (`LEVC`) records, redistributes the per-slot ingredient
effects inside each food/non-food partition, and writes one merged plugin.

Modelling conventions:
* byte strings are `List Nat` (each entry intended in `0..255`);
* Python `str` values are `List Nat` of character codes (`Str`);
* little-endian machine integers are `Int` with explicit encode/decode
  through `natToBytesLE`/`bytesToNatLE`; the `struct.pack` range errors on
  out-of-range input are not modelled and the corresponding theorems carry
  range hypotheses instead;
* the ingredient `weight` field is an IEEE-754 binary32 value, modelled by
  its 32-bit little-endian bit pattern (a `Nat < 2^32`): `pack('<f', w)`
  writes these four bytes and `unpack('f', ...)` reads them back;
* Python dicts are association lists in insertion order: updating an
  existing key keeps its position, a new key is appended at the end;
* `random.shuffle` is modelled by an explicit shuffling function
  `sh : Nat → List Ingredient → List Ingredient` (one call per round `i`),
  constrained in the theorems to produce a permutation of its input;
* a Python run that raises an uncaught exception (`IndexError` in
  `shuffle_ingredients`, `KeyError` in the duplicate re-attachment loop)
  is modelled by `Option.none`.
-/

/-- Character-code strings (Python `str` / `bytes` values). -/
abbrev Str := List Nat

/-- Character codes of a Lean string literal, used for the record tags. -/
def asc (s : String) : Str := s.data.map Char.toNat

/-! ## FieldCodec primitives -/

/-- Little-endian byte encoding of a natural number on `k` bytes
(`int.to_bytes` / the byte layer of `struct.pack`). -/
def natToBytesLE : Nat → Nat → List Nat
  | 0, _ => []
  | k + 1, n => (n % 256) :: natToBytesLE k (n / 256)

/-- Little-endian unsigned read of a byte string
(`int.from_bytes(ba, 'little')`). -/
def bytesToNatLE : List Nat → Nat
  | [] => 0
  | b :: rest => b + 256 * bytesToNatLE rest

/-- `parseNum`: little-endian signed read
(`int.from_bytes(ba, 'little', signed=True)`). -/
def parseNum (ba : List Nat) : Int :=
  if 2 * bytesToNatLE ba ≥ 2 ^ (8 * ba.length) then
    (bytesToNatLE ba : Int) - ((2 ^ (8 * ba.length) : Nat) : Int)
  else (bytesToNatLE ba : Int)

/-- `packLong`: 4-byte little-endian two's-complement encoding
(`pack('<l', i)`); the caller is expected to stay in `[-2^31, 2^31)`. -/
def packLong (i : Int) : List Nat :=
  natToBytesLE 4 (i.emod (2 ^ 32)).toNat

/-- Python's `bytes.find(0)`: index of the first zero byte, `-1` if none. -/
def pyFind0 (ba : List Nat) : Int :=
  match ba.findIdx? (fun b => b == 0) with
  | some i => (i : Int)
  | none => -1

/-- Python slice `ba[:i]` for an `int` index `i` (negative indices count
from the end, clamped at zero). -/
def pySliceTo (ba : List Nat) (i : Int) : List Nat :=
  if i < 0 then ba.take (ba.length - (-i).toNat) else ba.take i.toNat

/-- `.decode(encoding='ascii', errors='ignore')`: non-ASCII bytes are
silently dropped. -/
def asciiIgnore (ba : List Nat) : List Nat := ba.filter (fun b => b < 128)

/-- `parseString`: take the bytes before the first zero byte (all bytes but
the last when no zero byte exists, because `find` returns `-1`), then
ASCII-decode ignoring errors. -/
def parseString (ba : List Nat) : Str := asciiIgnore (pySliceTo ba (pyFind0 ba))

/-- `packPaddedString(s, l)`: ASCII-encode and pad with zero bytes to
length `l`; only when the encoding is strictly longer than `l` does the
code truncate to `l - 1` bytes and append one zero byte. -/
def packPaddedString (s : Str) (l : Nat) : List Nat :=
  if l < s.length then (if l = 0 then s.dropLast else s.take (l - 1)) ++ [0]
  else s ++ List.replicate (l - s.length) 0

/-! ## Effect slots and ingredients -/

/-- One of the four effect slots of an ingredient: the `(effect, skill,
attribute)` tuple built by `parseINGR`. -/
structure EffectSlot where
  effect : Int
  skill : Int
  attr : Int
deriving DecidableEq

/-- The fixed array of four effect slots of an ingredient. -/
structure Effects where
  e0 : EffectSlot
  e1 : EffectSlot
  e2 : EffectSlot
  e3 : EffectSlot
deriving DecidableEq

/-- `effects[i]` for `i = 0..3` (the program only ever uses these). -/
def Effects.get (E : Effects) : Nat → EffectSlot
  | 0 => E.e0
  | 1 => E.e1
  | 2 => E.e2
  | _ + 3 => E.e3

/-- `effects[i] = v` for `i = 0..3`. -/
def Effects.set (E : Effects) (i : Nat) (v : EffectSlot) : Effects :=
  match i with
  | 0 => { E with e0 := v }
  | 1 => { E with e1 := v }
  | 2 => { E with e2 := v }
  | _ + 3 => { E with e3 := v }

/-- The decoded ingredient record (the dict built by `parseINGR`).
The `effects_hash` dict entry always holds the same tuple as `effects`
when built by `parseINGR`, so it is not duplicated here; `file` is the
base name of the originating plugin file. -/
structure Ingredient where
  id : Str
  model : Str
  name : Str
  icon : Str
  script : Option Str
  weight : Nat
  value : Int
  effects : Effects
  file : Str
deriving DecidableEq

/-! ## Master-file union (PluginAssembler step (a)) -/

/-- Python dict assignment `d[k] = v` on an insertion-ordered association
list: an existing key keeps its position, a new key is appended. -/
def dictUpdate (k : Str) (v : Int) : List (Str × Int) → List (Str × Int)
  | [] => [(k, v)]
  | p :: rest => if p.1 = k then (k, v) :: rest else p :: dictUpdate k v rest

/-- Association-list lookup (Python `d[k]` / `k in d`). -/
def alookup (k : Str) : List (Str × Int) → Option Int
  | [] => none
  | p :: rest => if p.1 = k then some p.2 else alookup k rest

/-- The master-file union in `main`: for every decoded header, for every
`(master filename, size)` pair, `masters[name] = size`. -/
def buildMasters (tls : List (List (Str × Int))) : List (Str × Int) :=
  tls.foldl (fun m t => t.foldl (fun m' p => dictUpdate p.1 p.2 m') m) []

/-! ## Food classification (PluginAssembler steps (b) and (e)) -/

/-- A decoded leveled-list record: its name and the flat item-id list. -/
structure LevList where
  name : Str
  items : List Str
deriving DecidableEq

/-- Character codes of the marker `"food"`. -/
def foodLower : Str := [102, 111, 111, 100]

/-- Character codes of the marker `"Food"`. -/
def foodCap : Str := [70, 111, 111, 100]

/-- The test `'food' in name or 'Food' in name` from `main`. -/
def levNameIsFood (name : Str) : Bool :=
  decide (foodLower <:+: name) || decide (foodCap <:+: name)

/-- `set.add`: append an element unless already present (only membership
in the resulting set is ever observed). -/
def setAdd (s : List Str) (x : Str) : List Str :=
  if x ∈ s then s else s ++ [x]

/-- The `foodset` construction in `main`: item ids of every leveled list
whose name contains `"food"` or `"Food"`. -/
def buildFoodset (lls : List LevList) : List Str :=
  lls.foldl (fun s ll => if levNameIsFood ll.name then ll.items.foldl setAdd s else s) []

/-- The partition test in `main`:
`ingr['id'] in foodset or 'food' in ingr['id'] or 'Food' in ingr['id']`. -/
def isFoodIngr (foodset : List Str) (g : Ingredient) : Bool :=
  decide (g.id ∈ foodset) || decide (foodLower <:+: g.id) || decide (foodCap <:+: g.id)

/-- Modelled from the spec: ASCII lower-casing of one byte, used only to
state the spec's case-insensitive reading of the food marker test. -/
def lowerByte (b : Nat) : Nat := if 65 ≤ b ∧ b ≤ 90 then b + 32 else b

/-- Modelled from the spec: case-insensitive substring match on a marker
(the spec's reading of the food test; the code's test is `levNameIsFood`). -/
def containsInsensitive (marker name : Str) : Bool :=
  decide (marker <:+: name.map lowerByte)

/-! ## RecordStream (`readRecords` / `readSubRecord`) -/

/-- A nested sub-record: 4 tag bytes, a `u32` length, `length` data bytes. -/
structure SubRecord where
  typ : List Nat
  len : Nat
  data : List Nat
deriving DecidableEq

/-- `readSubRecord`: slice one sub-record off the front of a byte string.
Python slicing silently truncates when fewer bytes remain. -/
def readSubRecord (ba : List Nat) : SubRecord × List Nat :=
  let l := bytesToNatLE ((ba.drop 4).take 4)
  (⟨ba.take 4, l, (ba.drop 8).take l⟩, ba.drop (8 + l))

/-- Fuel-bounded form of the `while len(remains) > 0` sub-record loop
inside `readRecords`; each iteration strictly shortens the byte string, so
`ba.length` units of fuel always suffice. -/
def splitSubsF : Nat → List Nat → List SubRecord
  | 0, _ => []
  | fuel + 1, ba =>
    if ba.isEmpty then []
    else
      let pr := readSubRecord ba
      pr.1 :: splitSubsF fuel pr.2

/-- The `while len(remains) > 0` sub-record loop inside `readRecords`. -/
def splitSubs (ba : List Nat) : List SubRecord := splitSubsF ba.length ba

theorem readSubRecord_snd_length (ba : List Nat) (h : ba ≠ []) :
    (readSubRecord ba).2.length < ba.length := by
  have hpos : 0 < ba.length := List.length_pos.mpr h
  simp only [readSubRecord, List.length_drop]
  omega

theorem splitSubsF_congr (f1 : Nat) :
    ∀ (f2 : Nat) (ba : List Nat), ba.length ≤ f1 → ba.length ≤ f2 →
      splitSubsF f1 ba = splitSubsF f2 ba := by
  induction f1 with
  | zero =>
    intro f2 ba h1 _
    have hba : ba = [] := List.length_eq_zero.mp (Nat.le_zero.mp h1)
    subst hba
    cases f2 <;> simp [splitSubsF]
  | succ f1' ih =>
    intro f2 ba h1 h2
    by_cases hba : ba = []
    · subst hba
      cases f2 <;> simp [splitSubsF]
    · have hpos : 0 < ba.length := List.length_pos.mpr hba
      cases f2 with
      | zero => omega
      | succ f2' =>
        have hemp : ba.isEmpty = false := by
          simpa [List.isEmpty_iff] using hba
        have hlt : (readSubRecord ba).2.length < ba.length := readSubRecord_snd_length ba hba
        simp only [splitSubsF, hemp, Bool.false_eq_true, if_false]
        rw [ih f2' (readSubRecord ba).2 (by omega) (by omega)]

/-- Unfolding equation for `splitSubs`, matching the source loop. -/
theorem splitSubs_eq (ba : List Nat) :
    splitSubs ba =
      if ba.isEmpty then []
      else (readSubRecord ba).1 :: splitSubs (readSubRecord ba).2 := by
  by_cases hba : ba = []
  · subst hba; rfl
  · have hemp : ba.isEmpty = false := by simpa [List.isEmpty_iff] using hba
    have hpos : 0 < ba.length := List.length_pos.mpr hba
    have hlt : (readSubRecord ba).2.length < ba.length := readSubRecord_snd_length ba hba
    unfold splitSubs
    rw [show ba.length = (ba.length - 1) + 1 from by omega]
    simp only [splitSubsF, hemp, Bool.false_eq_true, if_false]
    rw [splitSubsF_congr (ba.length - 1) (readSubRecord ba).2.length (readSubRecord ba).2
      (by omega) (le_refl _)]

/-- A top-level record: 4 tag bytes, a `u32` length (the 8 reserved header
flag bytes are skipped), and the parsed sub-records of the payload. -/
structure RawRecord where
  typ : List Nat
  len : Nat
  subrecords : List SubRecord
deriving DecidableEq

/-- Fuel-bounded form of the `readRecords` loop; each iteration consumes
at least 16 bytes, so `ba.length` units of fuel always suffice. -/
def readRecordsF : Nat → List Nat → List RawRecord
  | 0, _ => []
  | fuel + 1, ba =>
    if ba.length < 16 then []
    else
      let l := bytesToNatLE ((ba.drop 4).take 4)
      ⟨ba.take 4, l, splitSubs ((ba.drop 16).take l)⟩ :: readRecordsF fuel (ba.drop (16 + l))

/-- `readRecords` over an in-memory byte string: read a 16-byte header; if
fewer than 16 bytes remain the generator simply returns (no error), else
read `length` payload bytes (truncated at end of stream) and split them
into sub-records. -/
def readRecordsBytes (ba : List Nat) : List RawRecord := readRecordsF ba.length ba

theorem readRecordsF_congr (f1 : Nat) :
    ∀ (f2 : Nat) (ba : List Nat), ba.length ≤ f1 → ba.length ≤ f2 →
      readRecordsF f1 ba = readRecordsF f2 ba := by
  induction f1 with
  | zero =>
    intro f2 ba h1 _
    have h16 : ba.length < 16 := by omega
    cases f2 <;> simp [readRecordsF, h16]
  | succ f1' ih =>
    intro f2 ba h1 h2
    by_cases h16 : ba.length < 16
    · cases f2 <;> simp [readRecordsF, h16]
    · cases f2 with
      | zero => omega
      | succ f2' =>
        simp only [readRecordsF, h16, if_false]
        rw [ih f2' _ (by simp only [List.length_drop]; omega)
          (by simp only [List.length_drop]; omega)]

/-- Unfolding equation for `readRecordsBytes`, matching the source loop. -/
theorem readRecordsBytes_eq (ba : List Nat) :
    readRecordsBytes ba =
      if ba.length < 16 then []
      else
        ⟨ba.take 4, bytesToNatLE ((ba.drop 4).take 4),
            splitSubs ((ba.drop 16).take (bytesToNatLE ((ba.drop 4).take 4)))⟩ ::
          readRecordsBytes (ba.drop (16 + bytesToNatLE ((ba.drop 4).take 4))) := by
  by_cases h16 : ba.length < 16
  · unfold readRecordsBytes
    cases hb : ba.length <;> simp_all [readRecordsF]
  · unfold readRecordsBytes
    rw [show ba.length = (ba.length - 1) + 1 from by omega]
    simp only [readRecordsF, h16, if_false]
    rw [readRecordsF_congr (ba.length - 1) (ba.drop (16 + _)).length _
      (by simp only [List.length_drop]; omega) (le_refl _)]
    rw [if_neg (show ¬ (ba.length - 1 + 1 < 16) from by omega)]

/-! ## EffectRedistributor (`shuffle_ingredients`) -/

/-- The inert test: all four slot effect ids strictly negative
(`ingr['effects'][i][0] < 0` for `i = 0..3`). -/
def isInert (g : Ingredient) : Bool :=
  decide (g.effects.e0.effect < 0) && decide (g.effects.e1.effect < 0) &&
    decide (g.effects.e2.effect < 0) && decide (g.effects.e3.effect < 0)

/-- `effect_lists[i]`: the slot-`i` tuples with positive effect id, in
working-set order. -/
def poolAt (working : List Ingredient) (i : Nat) : List EffectSlot :=
  working.filterMap (fun g =>
    if (g.effects.get i).effect > 0 then some (g.effects.get i) else none)

/-- `ingr['effects'][i] = v` on a whole ingredient. -/
def Ingredient.setEff (g : Ingredient) (i : Nat) (v : EffectSlot) : Ingredient :=
  { g with effects := g.effects.set i v }

/-- One `for i in range(0,4)` pass of `shuffle_ingredients` per list entry:
shuffle the array, assign `pool i` positionally, move the ingredients past
the pool length to the final dict.  When the pool is longer than the array
the Python code raises `IndexError`: modelled as `none`. -/
def shuffleLoop (sh : Nat → List Ingredient → List Ingredient)
    (pools : Nat → List EffectSlot) :
    List Nat → List Ingredient → List Ingredient →
      Option (List Ingredient × List Ingredient)
  | [], fin, arr => some (fin, arr)
  | i :: rest, fin, arr =>
    let arr1 := sh i arr
    let p := pools i
    if p.length ≤ arr1.length then
      shuffleLoop sh pools rest (fin ++ arr1.drop p.length)
        (List.zipWith (fun g e => g.setEff i e) (arr1.take p.length) p)
    else none

/-- `shuffle_ingredients`: set aside the inert ingredients, build the four
per-slot effect pools from the remaining working set, then run the four
assignment rounds; the returned list is the `final_ingredients` dict in
insertion order. -/
def shuffle_ingredients (sh : Nat → List Ingredient → List Ingredient)
    (ingredients : List Ingredient) : Option (List Ingredient) :=
  match shuffleLoop sh (fun i => poolAt (ingredients.filter (fun g => !isInert g)) i)
      [0, 1, 2, 3] (ingredients.filter (fun g => isInert g))
      (ingredients.filter (fun g => !isInert g)) with
  | some (fin, arr) => some (fin ++ arr)
  | none => none

/-- Number of ingredients whose slot-`i` effect is active (`effect_id > 0`). -/
def countActiveAt (i : Nat) (l : List Ingredient) : Nat :=
  (l.filter (fun g => decide ((g.effects.get i).effect > 0))).length

/-! ## Claim C4: `packPaddedString` -/

/-- C4 counterexample: for `s = "ab"` and `L = 2` the encoding of `s` is
exactly `L` bytes long, yet `packPaddedString` returns it untruncated and
unterminated, so the last byte of the result is `98`, not zero — against
the claim that an `L`-or-longer encoding is cut to `L - 1` bytes plus one
zero byte and that the last byte is always zero. -/
theorem packPaddedString_c4_counterexample :
    packPaddedString [97, 98] 2 = [97, 98] ∧
      (packPaddedString [97, 98] 2).getLast? ≠ some 0 := by decide

/-- C4 (amended): for positive `L`, `packPaddedString s L` always returns
exactly `L` bytes; when the encoding of `s` is shorter than `L` it is
right-padded with zero bytes; when it is strictly longer than `L` it is
truncated to `L - 1` bytes plus one zero byte; when it is exactly `L`
bytes it is returned unchanged, with no zero terminator. -/
theorem packPaddedString_c4_amended (s : Str) (l : Nat) (h : 0 < l) :
    (packPaddedString s l).length = l ∧
      (s.length < l → packPaddedString s l = s ++ List.replicate (l - s.length) 0) ∧
      (l < s.length → packPaddedString s l = s.take (l - 1) ++ [0]) ∧
      (s.length = l → packPaddedString s l = s) := by
  unfold packPaddedString
  by_cases hlt : l < s.length
  · have hl0 : ¬ l = 0 := by omega
    simp only [if_pos hlt, if_neg hl0]
    refine ⟨?_, ?_, ?_, ?_⟩
    · simp only [List.length_append, List.length_take, List.length_cons, List.length_nil]
      omega
    · intro hc; omega
    · intro _; trivial
    · intro hc; omega
  · simp only [if_neg hlt]
    refine ⟨?_, ?_, ?_, ?_⟩
    · simp only [List.length_append, List.length_replicate]
      omega
    · intro _; trivial
    · intro hc; omega
    · intro hc
      have : l - s.length = 0 := by omega
      simp [this]

/-- C4 witness: the amended theorem evaluated at `s = "a"`, `L = 3`. -/
theorem packPaddedString_c4_amended_witness :
    (packPaddedString [97] 3).length = 3 ∧ packPaddedString [97] 3 = [97, 0, 0] := by
  refine ⟨(packPaddedString_c4_amended [97] 3 (by decide)).1, ?_⟩
  have h := (packPaddedString_c4_amended [97] 3 (by decide)).2.1 (by decide)
  simpa using h

/-! ## Claim C10: `parseString` on unterminated input -/

/-- C10: on a byte string with no zero byte, `bytes.find` returns `-1` and
the slice `ba[:-1]` drops the final byte, so `parseString` returns the
ASCII decoding of all bytes except the last one. -/
theorem parseString_c10 (ba : List Nat) (h : ∀ b ∈ ba, b ≠ 0) :
    parseString ba = asciiIgnore ba.dropLast := by
  have hfind : ba.findIdx? (fun b => b == 0) = none := by
    rw [List.findIdx?_eq_none_iff]
    intro x hx
    simpa using h x hx
  unfold parseString pyFind0 pySliceTo
  rw [hfind]
  simp only [if_pos (by decide : (-1 : Int) < 0)]
  rw [List.dropLast_eq_take]
  rfl

/-- C10 witness: `parseString` on the unterminated two-byte string `"hi"`
returns just `"h"` — the final byte is silently dropped. -/
theorem parseString_c10_witness :
    parseString [104, 105] = asciiIgnore [104] ∧ parseString [104, 105] = [104] := by
  refine ⟨?_, by decide⟩
  have h := parseString_c10 [104, 105] (by decide)
  simpa using h

/-! ## Claim C5: master-file union -/

theorem alookup_dictUpdate (k k' : Str) (v : Int) (m : List (Str × Int)) :
    alookup k (dictUpdate k' v m) = if k = k' then some v else alookup k m := by
  induction m with
  | nil =>
    by_cases h : k = k'
    · simp only [dictUpdate, alookup, if_pos h.symm, if_pos h]
    · simp only [dictUpdate, alookup, if_neg (fun hc : k' = k => h hc.symm), if_neg h]
  | cons p rest ih =>
    by_cases hp : p.1 = k'
    · by_cases hk : k = k'
      · simp only [dictUpdate, if_pos hp, alookup, if_pos hk.symm, if_pos hk]
      · have hpk : ¬ p.1 = k := fun hc => hk ((hp.symm.trans hc).symm)
        simp only [dictUpdate, if_pos hp, alookup,
          if_neg (fun hc : k' = k => hk hc.symm), if_neg hk, if_neg hpk]
    · by_cases hpk : p.1 = k
      · have hk : ¬ k = k' := fun hc => hp (hpk.trans hc)
        simp only [dictUpdate, if_neg hp, alookup, if_pos hpk, if_neg hk]
      · simp only [dictUpdate, if_neg hp, alookup, if_neg hpk, ih]

theorem alookup_append (k : Str) (m1 m2 : List (Str × Int)) :
    alookup k (m1 ++ m2) = (alookup k m1).or (alookup k m2) := by
  induction m1 with
  | nil => simp [alookup]
  | cons p rest ih =>
    by_cases hp : p.1 = k <;> simp [alookup, hp, ih]

theorem alookup_foldl_dictUpdate (ps : List (Str × Int)) (m : List (Str × Int)) (k : Str) :
    alookup k (ps.foldl (fun m' p => dictUpdate p.1 p.2 m') m)
      = (alookup k ps.reverse).or (alookup k m) := by
  induction ps generalizing m with
  | nil => simp [alookup]
  | cons p rest ih =>
    rw [List.foldl_cons, ih, List.reverse_cons, alookup_append, alookup_dictUpdate]
    cases halo : alookup k rest.reverse with
    | some v => simp
    | none =>
      simp only [Option.none_or]
      by_cases hk : k = p.1 <;> simp [alookup, hk, Ne.symm]

theorem buildMasters_eq_flat (tls : List (List (Str × Int))) :
    buildMasters tls = tls.flatten.foldl (fun m' p => dictUpdate p.1 p.2 m') [] := by
  suffices h : ∀ (ts : List (List (Str × Int))) (m : List (Str × Int)),
      ts.foldl (fun m t => t.foldl (fun m' p => dictUpdate p.1 p.2 m') m) m
        = ts.flatten.foldl (fun m' p => dictUpdate p.1 p.2 m') m by
    exact h tls []
  intro ts
  induction ts with
  | nil => intro m; rfl
  | cons t rest ih =>
    intro m
    rw [List.foldl_cons, ih, List.flatten_cons, List.foldl_append]

theorem dictUpdate_keys_mem (k : Str) (v : Int) (m : List (Str × Int)) (x : Str)
    (hx : x ∈ (dictUpdate k v m).map Prod.fst) : x ∈ m.map Prod.fst ∨ x = k := by
  induction m with
  | nil =>
    simp only [dictUpdate, List.map_cons, List.map_nil, List.mem_singleton] at hx
    exact Or.inr hx
  | cons p rest ih =>
    by_cases hp : p.1 = k
    · simp only [dictUpdate, if_pos hp, List.map_cons, List.mem_cons] at hx
      rcases hx with hx | hx
      · exact Or.inr hx
      · exact Or.inl (List.mem_cons_of_mem _ hx)
    · simp only [dictUpdate, if_neg hp, List.map_cons, List.mem_cons] at hx
      rcases hx with hx | hx
      · exact Or.inl (List.mem_cons.mpr (Or.inl hx))
      · rcases ih hx with h1 | h1
        · exact Or.inl (List.mem_cons_of_mem _ h1)
        · exact Or.inr h1

theorem dictUpdate_keys_nodup (k : Str) (v : Int) (m : List (Str × Int))
    (h : (m.map Prod.fst).Nodup) : ((dictUpdate k v m).map Prod.fst).Nodup := by
  induction m with
  | nil => simp [dictUpdate]
  | cons p rest ih =>
    simp only [List.map_cons, List.nodup_cons] at h
    by_cases hp : p.1 = k
    · simp only [dictUpdate, if_pos hp, List.map_cons, List.nodup_cons]
      exact ⟨by rw [← hp]; exact h.1, h.2⟩
    · simp only [dictUpdate, if_neg hp, List.map_cons, List.nodup_cons]
      refine ⟨?_, ih h.2⟩
      intro hc
      rcases dictUpdate_keys_mem k v rest p.1 hc with h1 | h1
      · exact h.1 h1
      · exact hp h1

theorem buildMasters_keys_nodup (tls : List (List (Str × Int))) :
    ((buildMasters tls).map Prod.fst).Nodup := by
  rw [buildMasters_eq_flat]
  suffices h : ∀ (ps : List (Str × Int)) (m : List (Str × Int)),
      (m.map Prod.fst).Nodup →
      ((ps.foldl (fun m' p => dictUpdate p.1 p.2 m') m).map Prod.fst).Nodup by
    exact h tls.flatten [] (by simp)
  intro ps
  induction ps with
  | nil => intro m hm; exact hm
  | cons p rest ih =>
    intro m hm
    exact ih _ (dictUpdate_keys_nodup _ _ _ hm)

/-- C5 counterexample: two headers both declare master `"a"`, first with
size `1`, then with size `2`; the recorded size is `2` — the one from the
last occurrence — against the claim that the first-seen size wins. -/
theorem buildMasters_c5_counterexample :
    alookup [97] (buildMasters [[([97], 1)], [([97], 2)]]) = some 2 ∧
      (some (2 : Int) ≠ some (1 : Int)) := by decide

/-- C5 (amended): the union of the master lists is deduplicated by
filename (keys are pairwise distinct), and for a filename occurring more
than once the recorded size is the one from its last occurrence in header
order (`masters[name] = size` overwrites). -/
theorem buildMasters_c5_amended (tls : List (List (Str × Int))) (k : Str) :
    alookup k (buildMasters tls) = alookup k tls.flatten.reverse ∧
      ((buildMasters tls).map Prod.fst).Nodup := by
  refine ⟨?_, buildMasters_keys_nodup tls⟩
  rw [buildMasters_eq_flat, alookup_foldl_dictUpdate]
  simp [alookup]

/-! ## Claim C6: food classification -/

theorem setAdd_mem (s : List Str) (y x : Str) : x ∈ setAdd s y ↔ x ∈ s ∨ x = y := by
  unfold setAdd
  by_cases h : y ∈ s
  · simp only [if_pos h]
    constructor
    · exact Or.inl
    · rintro (hx | rfl)
      · exact hx
      · exact h
  · simp [if_neg h]

theorem foldl_setAdd_mem (items : List Str) (s : List Str) (x : Str) :
    x ∈ items.foldl setAdd s ↔ x ∈ s ∨ x ∈ items := by
  induction items generalizing s with
  | nil => simp
  | cons y rest ih =>
    rw [List.foldl_cons, ih, setAdd_mem]
    simp only [List.mem_cons]
    tauto

theorem buildFoodset_mem (lls : List LevList) (x : Str) :
    x ∈ buildFoodset lls ↔
      ∃ ll ∈ lls, levNameIsFood ll.name = true ∧ x ∈ ll.items := by
  unfold buildFoodset
  suffices h : ∀ (ls : List LevList) (s : List Str),
      x ∈ ls.foldl (fun s ll => if levNameIsFood ll.name then ll.items.foldl setAdd s else s) s ↔
        x ∈ s ∨ ∃ ll ∈ ls, levNameIsFood ll.name = true ∧ x ∈ ll.items by
    rw [h lls []]
    simp
  intro ls
  induction ls with
  | nil => intro s; simp
  | cons ll rest ih =>
    intro s
    rw [List.foldl_cons]
    by_cases hf : levNameIsFood ll.name
    · rw [if_pos hf, ih, foldl_setAdd_mem]
      simp only [List.mem_cons]
      constructor
      · rintro ((hx | hx) | ⟨l, hl, hfl, hxl⟩)
        · exact Or.inl hx
        · exact Or.inr ⟨ll, Or.inl rfl, hf, hx⟩
        · exact Or.inr ⟨l, Or.inr hl, hfl, hxl⟩
      · rintro (hx | ⟨l, hl | hl, hfl, hxl⟩)
        · exact Or.inl (Or.inl hx)
        · exact Or.inl (Or.inr (hl ▸ hxl))
        · exact Or.inr ⟨l, hl, hfl, hxl⟩
    · rw [if_neg hf, ih]
      simp only [List.mem_cons]
      constructor
      · rintro (hx | ⟨l, hl, hfl, hxl⟩)
        · exact Or.inl hx
        · exact Or.inr ⟨l, Or.inr hl, hfl, hxl⟩
      · rintro (hx | ⟨l, hl | hl, hfl, hxl⟩)
        · exact Or.inl hx
        · exact absurd (hl ▸ hfl) (by simpa using hf)
        · exact Or.inr ⟨l, hl, hfl, hxl⟩

/-- C6 counterexample: a leveled list named `"FOOD"` contains the item
`"x"`; under the claimed case-insensitive match the marker `"food"` is an
infix of the lower-cased name, so `"x"` should be classified as food, but
the code's `'food' in name or 'Food' in name` test fails and the food set
stays empty. -/
theorem food_c6_counterexample :
    containsInsensitive foodLower [70, 79, 79, 68] = true ∧
      buildFoodset [⟨[70, 79, 79, 68], [[120]]⟩] = [] ∧
      [120] ∉ buildFoodset [⟨[70, 79, 79, 68], [[120]]⟩] := by
  refine ⟨by decide, by decide, ?_⟩
  intro h
  rw [show buildFoodset [⟨[70, 79, 79, 68], [[120]]⟩] = [] from by decide] at h
  simp at h

/-- C6 (amended): the food marker match is a case-sensitive substring
match on exactly `"food"` or `"Food"`: an item id is in the food set iff
it appears in some leveled list whose name contains `"food"` or `"Food"`
as a substring, and an ingredient is classified as food iff its id is in
the food set or its id contains `"food"` or `"Food"` as a substring
(other capitalisations such as `"FOOD"` or `"FoOd"` do not match). -/
theorem food_c6_amended (lls : List LevList) (x : Str) (foodset : List Str) (g : Ingredient) :
    (x ∈ buildFoodset lls ↔
      ∃ ll ∈ lls, (foodLower <:+: ll.name ∨ foodCap <:+: ll.name) ∧ x ∈ ll.items) ∧
      (isFoodIngr foodset g = true ↔
        (g.id ∈ foodset ∨ foodLower <:+: g.id ∨ foodCap <:+: g.id)) := by
  constructor
  · rw [buildFoodset_mem]
    have hname : ∀ n : Str, levNameIsFood n = true ↔ (foodLower <:+: n ∨ foodCap <:+: n) := by
      intro n
      simp [levNameIsFood]
    constructor
    · rintro ⟨ll, hll, hf, hx⟩
      exact ⟨ll, hll, (hname ll.name).mp hf, hx⟩
    · rintro ⟨ll, hll, hf, hx⟩
      exact ⟨ll, hll, (hname ll.name).mpr hf, hx⟩
  · simp [isFoodIngr, or_assoc]

/-! ## Claim C3: record stream truncation behaviour -/

/-- C3 counterexample: with 8 bytes remaining where a record is expected
(more than 0, fewer than 16), `readRecords` does not fail — `fh.read(16)`
returns a short string and the generator simply returns, yielding no
record, exactly as at a clean end of stream.  No `TruncatedRecordError`
exists anywhere in the program. -/
theorem readRecords_c3_counterexample :
    readRecordsBytes [1, 2, 3, 4, 5, 6, 7, 8] = [] ∧ readRecordsBytes [] = [] := by
  exact ⟨by decide, by decide⟩

/-- C3 (amended): truncation never raises.  If fewer than 16 bytes remain
where a record is expected (including 0), the sequence ends normally with
no error; if the header declares more payload bytes than remain, the
record is still produced, its sub-records parsed from the bytes that are
available, and the sequence ends after it.  (The ASCII-tag hypothesis
keeps the model honest: Python would only additionally fail while
`decode`-ing a non-ASCII tag, which is unrelated to truncation.) -/
theorem readRecords_c3_amended (ba : List Nat) (hascii : ∀ b ∈ ba, b < 128) :
    (ba.length < 16 → readRecordsBytes ba = []) ∧
      (16 ≤ ba.length → ba.length < 16 + bytesToNatLE ((ba.drop 4).take 4) →
        readRecordsBytes ba =
          [⟨ba.take 4, bytesToNatLE ((ba.drop 4).take 4), splitSubs (ba.drop 16)⟩]) := by
  constructor
  · intro h16
    rw [readRecordsBytes_eq, if_pos h16]
  · intro h16 hlen
    rw [readRecordsBytes_eq, if_neg (by omega)]
    have htake : (ba.drop 16).take (bytesToNatLE ((ba.drop 4).take 4)) = ba.drop 16 := by
      apply List.take_of_length_le
      simp only [List.length_drop]
      omega
    have hdrop : ba.drop (16 + bytesToNatLE ((ba.drop 4).take 4)) = [] := by
      apply List.drop_eq_nil_of_le
      omega
    rw [htake, hdrop]
    rfl

/-- C3 witness: a 20-byte stream whose single record header declares a
100-byte payload; only 4 payload bytes exist, yet one record is produced
(its payload truncated to those 4 bytes) and the stream ends without
error; and a lone 8-byte remainder ends the stream normally. -/
theorem readRecords_c3_amended_witness :
    readRecordsBytes [1, 2, 3, 4, 5, 6, 7, 8] = [] ∧
      readRecordsBytes
          [73, 78, 71, 82, 100, 0, 0, 0, 0, 0, 0, 0, 0, 0, 0, 0, 1, 2, 3, 4] =
        [⟨[73, 78, 71, 82], 100, [⟨[1, 2, 3, 4], 0, []⟩]⟩] := by
  constructor
  · exact (readRecords_c3_amended [1, 2, 3, 4, 5, 6, 7, 8] (by decide)).1 (by decide)
  · have h := (readRecords_c3_amended
      [73, 78, 71, 82, 100, 0, 0, 0, 0, 0, 0, 0, 0, 0, 0, 0, 1, 2, 3, 4]
      (by decide)).2 (by decide) (by decide)
    rw [h]
    decide

/-! ## Concrete ingredients used in the redistribution claims -/

/-- An unused effect slot as stored by vanilla data. -/
def inactiveSlot : EffectSlot := ⟨-1, -1, -1⟩

/-- Build a small concrete ingredient with the given id and effects. -/
def mkIngr (id : Str) (eff : Effects) : Ingredient :=
  ⟨id, [109], [110], [105], none, 0, 0, eff, [102]⟩

/-- Concrete ingredient with one active effect (id 10) in slot 0 only. -/
def ingrSlot0 : Ingredient :=
  mkIngr [97] ⟨⟨10, -1, -1⟩, inactiveSlot, inactiveSlot, inactiveSlot⟩

/-- Concrete ingredient with one active effect (id 7) in slot 1 only. -/
def ingrSlot1 : Ingredient :=
  mkIngr [98] ⟨inactiveSlot, ⟨7, -1, -1⟩, inactiveSlot, inactiveSlot⟩

/-- Concrete ingredient whose four effect ids are all 0. -/
def ingrZeros : Ingredient :=
  mkIngr [122] ⟨⟨0, -1, -1⟩, ⟨0, -1, -1⟩, ⟨0, -1, -1⟩, ⟨0, -1, -1⟩⟩

/-- Concrete ingredient with one active effect (id 5) in slot 0 only. -/
def ingrFive : Ingredient :=
  mkIngr [99] ⟨⟨5, -1, -1⟩, inactiveSlot, inactiveSlot, inactiveSlot⟩

/-- Concrete ingredient with one active effect (id 7) in slot 1 only. -/
def ingrD : Ingredient :=
  mkIngr [100] ⟨inactiveSlot, ⟨7, -1, -1⟩, inactiveSlot, inactiveSlot⟩

/-- Concrete ingredient with one active effect (id 8) in slot 1 only. -/
def ingrE : Ingredient :=
  mkIngr [101] ⟨inactiveSlot, ⟨8, -1, -1⟩, inactiveSlot, inactiveSlot⟩

/-- Concrete ingredient whose four effect ids are all negative (inert). -/
def ingrInert : Ingredient :=
  mkIngr [106] ⟨inactiveSlot, inactiveSlot, inactiveSlot, inactiveSlot⟩

/-- A possible outcome of `random.shuffle`: reverse the array in round 0,
leave it unchanged in the other rounds. -/
def swapSh : Nat → List Ingredient → List Ingredient :=
  fun n l => if n = 0 then l.reverse else l

/-- A possible outcome of `random.shuffle`: leave the array unchanged in
every round. -/
def idSh : Nat → List Ingredient → List Ingredient := fun _ l => l

/-! ## Claim C1: per-slot active-effect count conservation -/

/-- C1: the conservation invariant fails on the code.  Partition
`{ingrSlot0, ingrSlot1}`: slot 0 has one active effect before the run.
With the round-0 shuffle producing the order `[ingrSlot1, ingrSlot0]`,
`ingrSlot1` receives the pooled slot-0 effect, while `ingrSlot0` is
trimmed to the final dict with its original active slot-0 effect still in
place (the code never clears a donated slot) — so two ingredients have an
active slot-0 effect after the run.  Both shuffler draws used are genuine
permutations. -/
theorem shuffle_c1_code_eval :
    countActiveAt 0 [ingrSlot0, ingrSlot1] = 1 ∧
      (shuffle_ingredients swapSh [ingrSlot0, ingrSlot1]).map (countActiveAt 0) = some 2 ∧
      (∀ (n : Nat) (l : List Ingredient), (swapSh n l).Perm l) := by
  refine ⟨by decide, by decide, ?_⟩
  intro n l
  unfold swapSh
  by_cases h : n = 0
  · rw [if_pos h]
    exact l.reverse_perm
  · rw [if_neg h]

/-! ## Claims C8 and C9: redistribution frame properties -/

/-- Forget the effects array: what remains is the part of an ingredient
that `shuffle_ingredients` never writes to. -/
def eraseEffects (g : Ingredient) : Ingredient :=
  { g with effects := ⟨inactiveSlot, inactiveSlot, inactiveSlot, inactiveSlot⟩ }

theorem eraseEffects_setEff (g : Ingredient) (i : Nat) (e : EffectSlot) :
    eraseEffects (g.setEff i e) = eraseEffects g := rfl

theorem zipWith_setEff_map_erase (i : Nat) :
    ∀ (p : List EffectSlot) (l : List Ingredient), p.length ≤ l.length →
      (List.zipWith (fun g e => g.setEff i e) l p).map eraseEffects =
        (l.take p.length).map eraseEffects := by
  intro p
  induction p with
  | nil => intro l _; simp
  | cons e rest ih =>
    intro l hl
    cases l with
    | nil => simp at hl
    | cons g l' =>
      simp only [List.zipWith_cons_cons, List.map_cons, List.length_cons, List.take_succ_cons]
      rw [eraseEffects_setEff, ih l' (by simpa using hl)]

theorem shuffleLoop_erase_perm (sh : Nat → List Ingredient → List Ingredient)
    (hsh : ∀ (n : Nat) (l : List Ingredient), (sh n l).Perm l)
    (pools : Nat → List EffectSlot) :
    ∀ (rounds : List Nat) (fin arr fin2 arr2 : List Ingredient),
      shuffleLoop sh pools rounds fin arr = some (fin2, arr2) →
      ((fin2 ++ arr2).map eraseEffects).Perm ((fin ++ arr).map eraseEffects) := by
  intro rounds
  induction rounds with
  | nil =>
    intro fin arr fin2 arr2 h
    simp only [shuffleLoop, Option.some.injEq, Prod.mk.injEq] at h
    rw [h.1, h.2]
  | cons i rest ih =>
    intro fin arr fin2 arr2 h
    simp only [shuffleLoop] at h
    by_cases hle : (pools i).length ≤ (sh i arr).length
    · rw [if_pos hle] at h
      have h1 := ih _ _ _ _ h
      refine h1.trans ?_
      have hz : (List.zipWith (fun g e => g.setEff i e)
            ((sh i arr).take (pools i).length) (pools i)).map eraseEffects
          = ((sh i arr).take (pools i).length).map eraseEffects := by
        rw [zipWith_setEff_map_erase i (pools i) ((sh i arr).take (pools i).length)
          (by simp only [List.length_take]; omega)]
        rw [List.take_take, Nat.min_self]
      rw [List.map_append, List.map_append, hz, List.append_assoc]
      refine (List.Perm.append_left _ List.perm_append_comm).trans ?_
      rw [← List.map_append, List.take_append_drop, ← List.map_append]
      exact (List.Perm.append_left fin (hsh i arr)).map eraseEffects
    · rw [if_neg hle] at h
      exact absurd h (by simp)

theorem shuffle_ingredients_erase_perm (sh : Nat → List Ingredient → List Ingredient)
    (hsh : ∀ (n : Nat) (l : List Ingredient), (sh n l).Perm l)
    (inp out : List Ingredient)
    (hout : shuffle_ingredients sh inp = some out) :
    (out.map eraseEffects).Perm (inp.map eraseEffects) := by
  unfold shuffle_ingredients at hout
  cases hloop : shuffleLoop sh (fun i => poolAt (inp.filter (fun g => !isInert g)) i)
      [0, 1, 2, 3] (inp.filter (fun g => isInert g)) (inp.filter (fun g => !isInert g)) with
  | none => rw [hloop] at hout; exact absurd hout (by simp)
  | some pr =>
    rw [hloop] at hout
    have hpr : out = pr.1 ++ pr.2 := by
      cases pr
      simpa using hout.symm
    subst hpr
    have h1 := shuffleLoop_erase_perm sh hsh _ [0, 1, 2, 3] _ _ pr.1 pr.2
      (by rw [hloop])
    refine h1.trans ?_
    exact (List.filter_append_perm (fun g => isInert g) inp).map eraseEffects

theorem shuffleLoop_final_grows (sh : Nat → List Ingredient → List Ingredient)
    (pools : Nat → List EffectSlot) :
    ∀ (rounds : List Nat) (fin arr fin2 arr2 : List Ingredient),
      shuffleLoop sh pools rounds fin arr = some (fin2, arr2) →
      ∃ t, fin2 = fin ++ t := by
  intro rounds
  induction rounds with
  | nil =>
    intro fin arr fin2 arr2 h
    simp only [shuffleLoop, Option.some.injEq, Prod.mk.injEq] at h
    exact ⟨[], by rw [← h.1, List.append_nil]⟩
  | cons i rest ih =>
    intro fin arr fin2 arr2 h
    simp only [shuffleLoop] at h
    by_cases hle : (pools i).length ≤ (sh i arr).length
    · rw [if_pos hle] at h
      obtain ⟨t, ht⟩ := ih _ _ _ _ h
      exact ⟨(sh i arr).drop (pools i).length ++ t, by rw [ht, List.append_assoc]⟩
    · rw [if_neg hle] at h
      exact absurd h (by simp)

/-- C8 counterexample: `ingrZeros` has all four slots inactive in the
claim's sense (`effect_id > 0` nowhere: all four ids are 0), yet it is not
placed into the output untouched — the inert test of the code requires
`effect_id < 0`, so `ingrZeros` stays in the working set and receives the
pooled effect 5 in slot 0 under the identity shuffle draw. -/
theorem shuffle_c8_counterexample :
    ((ingrZeros.effects.get 0).effect ≤ 0 ∧ (ingrZeros.effects.get 1).effect ≤ 0 ∧
        (ingrZeros.effects.get 2).effect ≤ 0 ∧ (ingrZeros.effects.get 3).effect ≤ 0) ∧
      shuffle_ingredients idSh [ingrZeros, ingrFive] =
        some [ingrFive,
          mkIngr [122] ⟨⟨5, -1, -1⟩, ⟨0, -1, -1⟩, ⟨0, -1, -1⟩, ⟨0, -1, -1⟩⟩] ∧
      ingrZeros ∉
        [ingrFive,
          mkIngr [122] ⟨⟨5, -1, -1⟩, ⟨0, -1, -1⟩, ⟨0, -1, -1⟩, ⟨0, -1, -1⟩⟩] := by
  decide

/-- C8 (amended): an ingredient all four of whose effect ids are strictly
negative (the code's inert test) is placed in the output of any completing
run of `shuffle_ingredients` as the very same unmodified value — it
neither receives nor donates any effect.  (An all-zero ingredient is
inactive in the spec's `effect_id > 0` sense but is not excluded by the
code.) -/
theorem shuffle_c8_amended (sh : Nat → List Ingredient → List Ingredient)
    (ingredients out : List Ingredient) (g : Ingredient)
    (hg : g ∈ ingredients) (hinert : isInert g = true)
    (hout : shuffle_ingredients sh ingredients = some out) : g ∈ out := by
  unfold shuffle_ingredients at hout
  cases hloop : shuffleLoop sh (fun i => poolAt (ingredients.filter (fun g => !isInert g)) i)
      [0, 1, 2, 3] (ingredients.filter (fun g => isInert g))
      (ingredients.filter (fun g => !isInert g)) with
  | none => rw [hloop] at hout; exact absurd hout (by simp)
  | some pr =>
    rw [hloop] at hout
    have hpr : out = pr.1 ++ pr.2 := by
      cases pr
      simpa using hout.symm
    obtain ⟨t, ht⟩ := shuffleLoop_final_grows sh _ [0, 1, 2, 3] _ _ pr.1 pr.2 (by rw [hloop])
    rw [hpr, ht]
    have hgf : g ∈ ingredients.filter (fun g => isInert g) :=
      List.mem_filter.mpr ⟨hg, hinert⟩
    exact List.mem_append.mpr (Or.inl (List.mem_append.mpr (Or.inl hgf)))

/-- C8 witness: the amended theorem at the one-element inert partition. -/
theorem shuffle_c8_amended_witness : ingrInert ∈ [ingrInert] :=
  shuffle_c8_amended idSh [ingrInert] [ingrInert] ingrInert (by decide) (by decide)
    (by decide)

/-- C9 counterexample: on the partition `{ingrD, ingrE}` (each with one
active effect in slot 1 and none in slot 0) the round-0 pool is empty, so
both ingredients are trimmed from the working array in round 0; in round 1
the pool still holds two effects and `ingr_array[0]` raises `IndexError` —
`shuffle_ingredients` does not return a mapping at all, for every shuffle
draw (here the identity draw). -/
theorem shuffle_c9_counterexample :
    shuffle_ingredients idSh [ingrD, ingrE] = none ∧
      (∀ (n : Nat) (l : List Ingredient), idSh n l = l) :=
  ⟨by decide, fun _ _ => rfl⟩

/-- C9 (amended): whenever `shuffle_ingredients` completes without raising
(at every round the slot pool fits the surviving array), the returned
mapping has exactly the ids of the input — each input ingredient appears
exactly once, none lost or duplicated — and every output ingredient agrees
with the input ingredient of the same id on every field other than the
four effect slots: model, display name, icon, script, weight, value and
origin file. -/
theorem shuffle_c9_amended (sh : Nat → List Ingredient → List Ingredient)
    (hsh : ∀ (n : Nat) (l : List Ingredient), (sh n l).Perm l)
    (inp out : List Ingredient)
    (hout : shuffle_ingredients sh inp = some out) :
    ((out.map (fun g => g.id)).Perm (inp.map (fun g => g.id))) ∧
      (∀ g' ∈ out, ∃ g ∈ inp, g'.id = g.id ∧ g'.model = g.model ∧ g'.name = g.name ∧
        g'.icon = g.icon ∧ g'.script = g.script ∧ g'.weight = g.weight ∧
        g'.value = g.value ∧ g'.file = g.file) := by
  have hperm := shuffle_ingredients_erase_perm sh hsh inp out hout
  constructor
  · have h1 := hperm.map (fun g => g.id)
    rw [List.map_map, List.map_map] at h1
    exact h1
  · intro g' hg'
    have hmem : eraseEffects g' ∈ inp.map eraseEffects :=
      hperm.subset (List.mem_map_of_mem eraseEffects hg')
    obtain ⟨g, hgin, hge⟩ := List.mem_map.mp hmem
    refine ⟨g, hgin, ?_, ?_, ?_, ?_, ?_, ?_, ?_, ?_⟩
    · exact (congrArg Ingredient.id hge).symm
    · exact (congrArg Ingredient.model hge).symm
    · exact (congrArg Ingredient.name hge).symm
    · exact (congrArg Ingredient.icon hge).symm
    · exact (congrArg Ingredient.script hge).symm
    · exact (congrArg Ingredient.weight hge).symm
    · exact (congrArg Ingredient.value hge).symm
    · exact (congrArg Ingredient.file hge).symm

/-- C9 witness: the amended theorem at a completing one-element run. -/
theorem shuffle_c9_amended_witness :
    (([ingrFive].map (fun g => g.id)).Perm ([ingrFive].map (fun g => g.id))) ∧
      (∀ g' ∈ [ingrFive], ∃ g ∈ [ingrFive], g'.id = g.id ∧ g'.model = g.model ∧
        g'.name = g.name ∧ g'.icon = g.icon ∧ g'.script = g.script ∧
        g'.weight = g.weight ∧ g'.value = g.value ∧ g'.file = g.file) :=
  shuffle_c9_amended idSh (fun _ l => List.Perm.refl l) [ingrFive] [ingrFive] (by decide)

/-! ## RecordCodecs: the `INGR` codec (claims about `packINGR`/`parseINGR`) -/

/-- Record/sub-record tag `NAME`. -/
def tNAME : Str := asc "NAME"

/-- Record/sub-record tag `MODL`. -/
def tMODL : Str := asc "MODL"

/-- Record/sub-record tag `FNAM`. -/
def tFNAM : Str := asc "FNAM"

/-- Record/sub-record tag `ITEX`. -/
def tITEX : Str := asc "ITEX"

/-- Record/sub-record tag `SCRI`. -/
def tSCRI : Str := asc "SCRI"

/-- Record/sub-record tag `IRDT`. -/
def tIRDT : Str := asc "IRDT"

/-- Record tag `INGR`. -/
def tINGR : Str := asc "INGR"

/-- `packString`: `bytes(s, 'ascii')` — byte values equal character codes
(it raises on codes ≥ 128, so the theorems carry ASCII hypotheses). -/
def packString (s : Str) : List Nat := s

/-- `packStringSubRecord(lbl, s)`: tag, length of the null-terminated
string, the string bytes, one zero byte. -/
def packStringSubRecord (lbl : Str) (s : Str) : List Nat :=
  lbl ++ packLong ((s.length : Int) + 1) ++ (packString s ++ [0])

/-- `packFloat` on the modelled binary32 bit pattern. -/
def packFloat (w : Nat) : List Nat := natToBytesLE 4 w

/-- `parseFloat` on the modelled binary32 bit pattern. -/
def parseFloat (ba : List Nat) : Nat := bytesToNatLE ba

/-- The dead-data normalisation in `parseINGR`: effects in one fixed id
set keep their attribute (skill forced to `-1`), effects in another keep
their skill (attribute forced to `-1`), all others get `-1` for both. -/
def normSlot (effect skill attrv : Int) : EffectSlot :=
  if effect = 17 ∨ effect = 22 ∨ effect = 74 ∨ effect = 79 ∨ effect = 85 then
    ⟨effect, -1, attrv⟩
  else if effect = 21 ∨ effect = 26 ∨ effect = 78 ∨ effect = 83 ∨ effect = 89 then
    ⟨effect, skill, -1⟩
  else ⟨effect, -1, -1⟩

/-- Slot `i` of an `IRDT` payload: effect id at offset `8+4i`, skill at
`24+4i`, attribute at `40+4i`, normalised. -/
def slotAt (d : List Nat) (i : Nat) : EffectSlot :=
  normSlot (parseNum ((d.drop (8 + 4 * i)).take 4))
    (parseNum ((d.drop (24 + 4 * i)).take 4))
    (parseNum ((d.drop (40 + 4 * i)).take 4))

/-- The dict built by `parseINGR`: every field is optional because each is
set only when a sub-record of the matching tag is seen. -/
structure PIngr where
  id? : Option Str
  model? : Option Str
  name? : Option Str
  icon? : Option Str
  script? : Option Str
  weight? : Option Nat
  value? : Option Int
  effects? : Option Effects
deriving DecidableEq

/-- The empty dict `parseINGR` starts from. -/
def emptyPIngr : PIngr := ⟨none, none, none, none, none, none, none, none⟩

/-- One iteration of the sub-record dispatch loop of `parseINGR`; an
unrecognised tag only prints a warning and changes nothing. -/
def parseINGRsub (acc : PIngr) (sr : SubRecord) : PIngr :=
  if sr.typ = tNAME then { acc with id? := some (parseString sr.data) }
  else if sr.typ = tMODL then { acc with model? := some (parseString sr.data) }
  else if sr.typ = tFNAM then { acc with name? := some (parseString sr.data) }
  else if sr.typ = tITEX then { acc with icon? := some (parseString sr.data) }
  else if sr.typ = tSCRI then { acc with script? := some (parseString sr.data) }
  else if sr.typ = tIRDT then
    { acc with
      weight? := some (parseFloat (sr.data.take 4)),
      value? := some (parseNum ((sr.data.drop 4).take 4)),
      effects? := some ⟨slotAt sr.data 0, slotAt sr.data 1, slotAt sr.data 2, slotAt sr.data 3⟩ }
  else acc

/-- `parseINGR` over the sub-records of one record (the `file` dict entry,
taken from the stream path rather than the record bytes, is not part of
this structure). -/
def parseINGR (srs : List SubRecord) : PIngr := srs.foldl parseINGRsub emptyPIngr

/-- The 56 data bytes of the `IRDT` sub-record: weight, value, then the
four effect ids, the four skill ids, the four attribute ids. -/
def irdtData (g : Ingredient) : List Nat :=
  List.flatten [packFloat g.weight, packLong g.value,
    packLong g.effects.e0.effect, packLong g.effects.e1.effect,
    packLong g.effects.e2.effect, packLong g.effects.e3.effect,
    packLong g.effects.e0.skill, packLong g.effects.e1.skill,
    packLong g.effects.e2.skill, packLong g.effects.e3.skill,
    packLong g.effects.e0.attr, packLong g.effects.e1.attr,
    packLong g.effects.e2.attr, packLong g.effects.e3.attr]

/-- The `IRDT` sub-record: tag, the constant declared length 56, data. -/
def packIRDT (g : Ingredient) : List Nat := tIRDT ++ packLong 56 ++ irdtData g

/-- The payload of a packed `INGR` record: id, model, display name,
numeric block, icon, then the optional script sub-record. -/
def payloadINGR (g : Ingredient) : List Nat :=
  packStringSubRecord tNAME g.id ++ packStringSubRecord tMODL g.model ++
    packStringSubRecord tFNAM g.name ++ packIRDT g ++
    packStringSubRecord tITEX g.icon ++
    (match g.script with | some s => packStringSubRecord tSCRI s | none => [])

/-- `packINGR`: tag, record length, 8 zero header-flag bytes, payload. -/
def packINGR (g : Ingredient) : List Nat :=
  tINGR ++ packLong (((payloadINGR g).length : Nat) : Int) ++ List.replicate 8 0 ++
    payloadINGR g

/-- Decode one packed `INGR` record exactly the way the program reads it
back: 16-byte header (tag, length, 8 flag bytes), then `length` payload
bytes split into sub-records and dispatched by `parseINGR`. -/
def decodeINGRbytes (bs : List Nat) : PIngr :=
  parseINGR (splitSubs ((bs.drop 16).take (bytesToNatLE ((bs.drop 4).take 4))))

/-! ## Round-trip lemmas for the field codec -/

theorem natToBytesLE_length (k : Nat) : ∀ n : Nat, (natToBytesLE k n).length = k := by
  induction k with
  | zero => intro n; rfl
  | succ k ih => intro n; simp [natToBytesLE, ih]

theorem bytesToNat_natToBytes (k : Nat) : ∀ n : Nat, n < 256 ^ k →
    bytesToNatLE (natToBytesLE k n) = n := by
  induction k with
  | zero =>
    intro n h
    have hn : n = 0 := by simpa using h
    subst hn; rfl
  | succ k ih =>
    intro n h
    simp only [natToBytesLE, bytesToNatLE]
    rw [ih (n / 256) (Nat.div_lt_iff_lt_mul (by norm_num) |>.mpr (by rw [pow_succ] at h; exact h))]
    exact Nat.mod_add_div n 256

theorem packLong_length (i : Int) : (packLong i).length = 4 := natToBytesLE_length 4 _

theorem packLong_ofNat (n : Nat) (h : n < 2 ^ 32) :
    packLong (n : Int) = natToBytesLE 4 n := by
  unfold packLong
  rw [show (2 : Nat) ^ 32 = 4294967296 from by norm_num] at h
  have hInt : (n : Int) < 2 ^ 32 := by
    rw [show (2 : Int) ^ 32 = 4294967296 from by norm_num]
    exact_mod_cast h
  have h1 : ((n : Int)).emod (2 ^ 32) = (n : Int) :=
    Int.emod_eq_of_lt (by positivity) hInt
  rw [h1, Int.toNat_natCast]

theorem bytesToNat_packLong_ofNat (n : Nat) (h : n < 2 ^ 31) :
    bytesToNatLE (packLong (n : Int)) = n := by
  rw [show (2 : Nat) ^ 31 = 2147483648 from by norm_num] at h
  rw [packLong_ofNat n (by rw [show (2 : Nat) ^ 32 = 4294967296 from by norm_num]; omega)]
  exact bytesToNat_natToBytes 4 n
    (by rw [show (256 : Nat) ^ 4 = 4294967296 from by norm_num]; omega)

theorem parseNum_packLong (i : Int) (h1 : -2 ^ 31 ≤ i) (h2 : i < 2 ^ 31) :
    parseNum (packLong i) = i := by
  rw [show (2 : Int) ^ 31 = 2147483648 from by norm_num] at h1 h2
  have hchar : i.emod (2 ^ 32) = if 0 ≤ i then i else i + 2 ^ 32 := by
    by_cases hi : 0 ≤ i
    · rw [if_pos hi]
      exact Int.emod_eq_of_lt hi
        (by rw [show (2 : Int) ^ 32 = 4294967296 from by norm_num]; omega)
    · rw [if_neg hi]
      have heq : i.emod (2 ^ 32) = (i + 2 ^ 32 * 1).emod (2 ^ 32) :=
        (Int.add_mul_emod_self_left i (2 ^ 32) 1).symm
      rw [heq, mul_one]
      exact Int.emod_eq_of_lt
        (by rw [show (2 : Int) ^ 32 = 4294967296 from by norm_num]; omega)
        (by rw [show (2 : Int) ^ 32 = 4294967296 from by norm_num] at *; omega)
  unfold parseNum packLong
  rw [natToBytesLE_length, hchar]
  by_cases hi : 0 ≤ i
  · rw [if_pos hi]
    rw [bytesToNat_natToBytes 4 _
      (by rw [show (256 : Nat) ^ 4 = 4294967296 from by norm_num]; omega)]
    rw [show (2 : Nat) ^ (8 * 4) = 4294967296 from by norm_num]
    split <;> omega
  · rw [if_neg hi]
    rw [show (2 : Int) ^ 32 = 4294967296 from by norm_num]
    rw [bytesToNat_natToBytes 4 _
      (by rw [show (256 : Nat) ^ 4 = 4294967296 from by norm_num]; omega)]
    rw [show (2 : Nat) ^ (8 * 4) = 4294967296 from by norm_num]
    split <;> omega

theorem findIdx0_packed (s : Str) (h0 : ∀ b ∈ s, b ≠ 0) :
    (s ++ [0]).findIdx? (fun b => b == 0) = some s.length := by
  induction s with
  | nil => rfl
  | cons b rest ih =>
    have hb : (b == 0) = false := by
      simpa using h0 b (List.mem_cons_self b rest)
    rw [List.cons_append, List.findIdx?_cons, hb]
    simp only [Bool.false_eq_true, if_false]
    rw [List.findIdx?_succ, ih (fun x hx => h0 x (List.mem_cons_of_mem _ hx))]
    rfl

theorem parseString_packed (s : Str) (h128 : ∀ b ∈ s, b < 128) (h0 : ∀ b ∈ s, b ≠ 0) :
    parseString (packString s ++ [0]) = s := by
  have hpf : pyFind0 (packString s ++ [0]) = (s.length : Int) := by
    unfold pyFind0 packString
    rw [findIdx0_packed s h0]
  unfold parseString
  rw [hpf]
  unfold pySliceTo
  rw [if_neg (by omega)]
  have htake : ((packString s ++ [0]).take ((s.length : Int)).toNat) = s := by
    rw [Int.toNat_natCast]
    exact List.take_left s [0]
  rw [htake]
  unfold asciiIgnore
  rw [List.filter_eq_self.mpr]
  intro a ha
  simpa using h128 a ha

/-! ## Framing lemmas: splitting a packed payload into sub-records -/

theorem splitSubs_chunk (t d rest : List Nat) (ht : t.length = 4) (hd : d.length < 2 ^ 32) :
    splitSubs (t ++ natToBytesLE 4 d.length ++ d ++ rest) =
      ⟨t, d.length, d⟩ :: splitSubs rest := by
  have hne : t ++ natToBytesLE 4 d.length ++ d ++ rest ≠ [] := by
    intro hc
    have : t = [] := by
      cases t with
      | nil => rfl
      | cons x xs => simp at hc
    rw [this] at ht
    simp at ht
  rw [splitSubs_eq]
  rw [if_neg (by simpa [List.isEmpty_iff] using hne)]
  have hassoc : t ++ natToBytesLE 4 d.length ++ d ++ rest
      = t ++ (natToBytesLE 4 d.length ++ (d ++ rest)) := by
    simp [List.append_assoc]
  have hrs : readSubRecord (t ++ natToBytesLE 4 d.length ++ d ++ rest)
      = (⟨t, d.length, d⟩, rest) := by
    unfold readSubRecord
    have htake4 : (t ++ natToBytesLE 4 d.length ++ d ++ rest).take 4 = t := by
      rw [hassoc]
      exact List.take_left' ht
    have hdrop4 : (t ++ natToBytesLE 4 d.length ++ d ++ rest).drop 4
        = natToBytesLE 4 d.length ++ (d ++ rest) := by
      rw [hassoc]
      exact List.drop_left' ht
    have hlen : bytesToNatLE (((t ++ natToBytesLE 4 d.length ++ d ++ rest).drop 4).take 4)
        = d.length := by
      rw [hdrop4, List.take_left' (natToBytesLE_length 4 d.length)]
      exact bytesToNat_natToBytes 4 d.length
        (by rw [show (256 : Nat) ^ 4 = 4294967296 from by norm_num]
            rw [show (2 : Nat) ^ 32 = 4294967296 from by norm_num] at hd
            exact hd)
    have hdrop8 : (t ++ natToBytesLE 4 d.length ++ d ++ rest).drop 8 = d ++ rest := by
      rw [show t ++ natToBytesLE 4 d.length ++ d ++ rest
        = (t ++ natToBytesLE 4 d.length) ++ (d ++ rest) from by simp [List.append_assoc]]
      exact List.drop_left' (by simp [ht, natToBytesLE_length] <;> omega)
    have hdata : ((t ++ natToBytesLE 4 d.length ++ d ++ rest).drop 8).take
        (bytesToNatLE (((t ++ natToBytesLE 4 d.length ++ d ++ rest).drop 4).take 4)) = d := by
      rw [hlen, hdrop8, List.take_left]
    have hrest : (t ++ natToBytesLE 4 d.length ++ d ++ rest).drop
        (8 + bytesToNatLE (((t ++ natToBytesLE 4 d.length ++ d ++ rest).drop 4).take 4))
        = rest := by
      rw [hlen]
      rw [show t ++ natToBytesLE 4 d.length ++ d ++ rest
        = (t ++ natToBytesLE 4 d.length ++ d) ++ rest from by simp [List.append_assoc]]
      exact List.drop_left' (by simp [ht, natToBytesLE_length] <;> omega)
    rw [Prod.ext_iff]
    refine ⟨?_, hrest⟩
    simp only [SubRecord.mk.injEq]
    exact ⟨htake4, hlen, hdata⟩
  rw [hrs]

theorem chunk_extract : ∀ (cs : List (List Nat)) (j : Nat), (∀ c ∈ cs, c.length = 4) →
    j < cs.length → ((cs.flatten).drop (4 * j)).take 4 = cs.getD j [] := by
  intro cs
  induction cs with
  | nil => intro j _ hj; simp at hj
  | cons c rest ih =>
    intro j hlen hj
    cases j with
    | zero =>
      simp only [Nat.mul_zero, List.drop_zero, List.flatten_cons, List.getD_cons_zero]
      rw [← hlen c (List.mem_cons_self c rest), List.take_left]
    | succ j' =>
      have hc4 : c.length = 4 := hlen c (List.mem_cons_self c rest)
      have hdrop : ((c :: rest).flatten).drop (4 * (j' + 1))
          = (rest.flatten).drop (4 * j') := by
        rw [List.flatten_cons, show 4 * (j' + 1) = c.length + 4 * j' from by omega,
          List.drop_append]
      rw [hdrop, List.getD_cons_succ]
      exact ih j' (fun x hx => hlen x (List.mem_cons_of_mem _ hx)) (by simpa using hj)

/-! ## IRDT field extraction -/

/-- A signed 32-bit range condition on a model integer. -/
def int32 (i : Int) : Prop := -2 ^ 31 ≤ i ∧ i < 2 ^ 31

/-- All three components of an effect slot fit in a signed 32-bit field. -/
def slotInt32 (e : EffectSlot) : Prop := int32 e.effect ∧ int32 e.skill ∧ int32 e.attr

instance int32Decidable (i : Int) : Decidable (int32 i) :=
  inferInstanceAs (Decidable (-2 ^ 31 ≤ i ∧ i < 2 ^ 31))

instance slotInt32Decidable (e : EffectSlot) : Decidable (slotInt32 e) :=
  inferInstanceAs (Decidable (int32 e.effect ∧ int32 e.skill ∧ int32 e.attr))

theorem irdtData_length (g : Ingredient) : (irdtData g).length = 56 := by
  simp [irdtData, packFloat, packLong_length, natToBytesLE_length]

theorem irdt_chunk_len (g : Ingredient) :
    ∀ c ∈ [packFloat g.weight, packLong g.value,
      packLong g.effects.e0.effect, packLong g.effects.e1.effect,
      packLong g.effects.e2.effect, packLong g.effects.e3.effect,
      packLong g.effects.e0.skill, packLong g.effects.e1.skill,
      packLong g.effects.e2.skill, packLong g.effects.e3.skill,
      packLong g.effects.e0.attr, packLong g.effects.e1.attr,
      packLong g.effects.e2.attr, packLong g.effects.e3.attr], c.length = 4 := by
  intro c hc
  simp only [List.mem_cons, List.not_mem_nil, or_false] at hc
  rcases hc with rfl | rfl | rfl | rfl | rfl | rfl | rfl | rfl | rfl | rfl | rfl | rfl | rfl | rfl
  all_goals first
    | exact natToBytesLE_length 4 _
    | exact packLong_length _

theorem irdt_chunk (g : Ingredient) (j : Nat) (hj : j < 14) :
    ((irdtData g).drop (4 * j)).take 4 =
      [packFloat g.weight, packLong g.value,
        packLong g.effects.e0.effect, packLong g.effects.e1.effect,
        packLong g.effects.e2.effect, packLong g.effects.e3.effect,
        packLong g.effects.e0.skill, packLong g.effects.e1.skill,
        packLong g.effects.e2.skill, packLong g.effects.e3.skill,
        packLong g.effects.e0.attr, packLong g.effects.e1.attr,
        packLong g.effects.e2.attr, packLong g.effects.e3.attr].getD j [] :=
  chunk_extract _ j (irdt_chunk_len g) (by simpa using hj)

theorem irdt_weight (g : Ingredient) (hw : g.weight < 2 ^ 32) :
    parseFloat ((irdtData g).take 4) = g.weight := by
  have h := irdt_chunk g 0 (by norm_num)
  rw [Nat.mul_zero, List.drop_zero] at h
  rw [h]
  unfold parseFloat packFloat
  simp only [List.getD_cons_zero]
  exact bytesToNat_natToBytes 4 _
    (by rw [show (256 : Nat) ^ 4 = 4294967296 from by norm_num]
        rw [show (2 : Nat) ^ 32 = 4294967296 from by norm_num] at hw
        exact hw)

theorem irdt_value (g : Ingredient) (hv : int32 g.value) :
    parseNum (((irdtData g).drop 4).take 4) = g.value := by
  have h := irdt_chunk g 1 (by norm_num)
  rw [show 4 * 1 = 4 from by norm_num] at h
  rw [h]
  simp only [List.getD_cons_succ, List.getD_cons_zero]
  exact parseNum_packLong g.value hv.1 hv.2

theorem irdt_slot (g : Ingredient) (i : Nat) (hi : i < 4)
    (hs : slotInt32 (g.effects.get i)) :
    slotAt (irdtData g) i =
      normSlot (g.effects.get i).effect (g.effects.get i).skill (g.effects.get i).attr := by
  interval_cases i
  · simp only [Effects.get] at hs ⊢
    unfold slotAt
    rw [show (8 : Nat) + 4 * 0 = 4 * 2 from by norm_num, irdt_chunk g 2 (by norm_num),
      show (24 : Nat) + 4 * 0 = 4 * 6 from by norm_num, irdt_chunk g 6 (by norm_num),
      show (40 : Nat) + 4 * 0 = 4 * 10 from by norm_num, irdt_chunk g 10 (by norm_num)]
    simp only [List.getD_cons_succ, List.getD_cons_zero]
    rw [parseNum_packLong _ hs.1.1 hs.1.2, parseNum_packLong _ hs.2.1.1 hs.2.1.2,
      parseNum_packLong _ hs.2.2.1 hs.2.2.2]
  · simp only [Effects.get] at hs ⊢
    unfold slotAt
    rw [show (8 : Nat) + 4 * 1 = 4 * 3 from by norm_num, irdt_chunk g 3 (by norm_num),
      show (24 : Nat) + 4 * 1 = 4 * 7 from by norm_num, irdt_chunk g 7 (by norm_num),
      show (40 : Nat) + 4 * 1 = 4 * 11 from by norm_num, irdt_chunk g 11 (by norm_num)]
    simp only [List.getD_cons_succ, List.getD_cons_zero]
    rw [parseNum_packLong _ hs.1.1 hs.1.2, parseNum_packLong _ hs.2.1.1 hs.2.1.2,
      parseNum_packLong _ hs.2.2.1 hs.2.2.2]
  · simp only [Effects.get] at hs ⊢
    unfold slotAt
    rw [show (8 : Nat) + 4 * 2 = 4 * 4 from by norm_num, irdt_chunk g 4 (by norm_num),
      show (24 : Nat) + 4 * 2 = 4 * 8 from by norm_num, irdt_chunk g 8 (by norm_num),
      show (40 : Nat) + 4 * 2 = 4 * 12 from by norm_num, irdt_chunk g 12 (by norm_num)]
    simp only [List.getD_cons_succ, List.getD_cons_zero]
    rw [parseNum_packLong _ hs.1.1 hs.1.2, parseNum_packLong _ hs.2.1.1 hs.2.1.2,
      parseNum_packLong _ hs.2.2.1 hs.2.2.2]
  · simp only [Effects.get] at hs ⊢
    unfold slotAt
    rw [show (8 : Nat) + 4 * 3 = 4 * 5 from by norm_num, irdt_chunk g 5 (by norm_num),
      show (24 : Nat) + 4 * 3 = 4 * 9 from by norm_num, irdt_chunk g 9 (by norm_num),
      show (40 : Nat) + 4 * 3 = 4 * 13 from by norm_num, irdt_chunk g 13 (by norm_num)]
    simp only [List.getD_cons_succ, List.getD_cons_zero]
    rw [parseNum_packLong _ hs.1.1 hs.1.2, parseNum_packLong _ hs.2.1.1 hs.2.1.2,
      parseNum_packLong _ hs.2.2.1 hs.2.2.2]

/-! ## Payload decomposition lemmas -/

theorem lt_2_32_of_len (n : Nat) (h : n < 2 ^ 20) : n + 1 < 2 ^ 32 := by
  rw [show (2 : Nat) ^ 20 = 1048576 from by norm_num] at h
  rw [show (2 : Nat) ^ 32 = 4294967296 from by norm_num]
  omega

theorem packStringSubRecord_eq (lbl s : Str) (h : s.length < 2 ^ 20) :
    packStringSubRecord lbl s =
      lbl ++ natToBytesLE 4 (packString s ++ [0]).length ++ (packString s ++ [0]) := by
  unfold packStringSubRecord
  have hc : ((s.length : Int) + 1) = (((s.length + 1 : Nat) : Nat) : Int) := by push_cast; ring
  have hlen : (packString s ++ [0]).length = s.length + 1 := by
    simp [packString]
  rw [hc, packLong_ofNat (s.length + 1) (lt_2_32_of_len _ h), hlen]

theorem packIRDT_eq (g : Ingredient) :
    packIRDT g = tIRDT ++ natToBytesLE 4 (irdtData g).length ++ irdtData g := by
  unfold packIRDT
  rw [irdtData_length]
  rw [show (56 : Int) = ((56 : Nat) : Int) from by norm_num,
    packLong_ofNat 56 (by norm_num)]

theorem parseINGRsub_NAME (acc : PIngr) (L : Nat) (d : List Nat) :
    parseINGRsub acc ⟨tNAME, L, d⟩ = { acc with id? := some (parseString d) } := by
  unfold parseINGRsub
  dsimp only
  rw [if_pos rfl]

theorem parseINGRsub_MODL (acc : PIngr) (L : Nat) (d : List Nat) :
    parseINGRsub acc ⟨tMODL, L, d⟩ = { acc with model? := some (parseString d) } := by
  unfold parseINGRsub
  dsimp only
  rw [if_neg (by decide), if_pos rfl]

theorem parseINGRsub_FNAM (acc : PIngr) (L : Nat) (d : List Nat) :
    parseINGRsub acc ⟨tFNAM, L, d⟩ = { acc with name? := some (parseString d) } := by
  unfold parseINGRsub
  dsimp only
  rw [if_neg (by decide), if_neg (by decide), if_pos rfl]

theorem parseINGRsub_ITEX (acc : PIngr) (L : Nat) (d : List Nat) :
    parseINGRsub acc ⟨tITEX, L, d⟩ = { acc with icon? := some (parseString d) } := by
  unfold parseINGRsub
  dsimp only
  rw [if_neg (by decide), if_neg (by decide), if_neg (by decide), if_pos rfl]

theorem parseINGRsub_SCRI (acc : PIngr) (L : Nat) (d : List Nat) :
    parseINGRsub acc ⟨tSCRI, L, d⟩ = { acc with script? := some (parseString d) } := by
  unfold parseINGRsub
  dsimp only
  rw [if_neg (by decide), if_neg (by decide), if_neg (by decide), if_neg (by decide),
    if_pos rfl]

theorem parseINGRsub_IRDT (acc : PIngr) (L : Nat) (d : List Nat) :
    parseINGRsub acc ⟨tIRDT, L, d⟩ =
      { acc with
        weight? := some (parseFloat (d.take 4)),
        value? := some (parseNum ((d.drop 4).take 4)),
        effects? := some ⟨slotAt d 0, slotAt d 1, slotAt d 2, slotAt d 3⟩ } := by
  unfold parseINGRsub
  dsimp only
  rw [if_neg (by decide), if_neg (by decide), if_neg (by decide), if_neg (by decide),
    if_neg (by decide), if_pos rfl]

/-! ## Claim C2: ingredient encode/decode round trip -/

/-- Every byte of the string is ASCII and nonzero, so `bytes(s, 'ascii')`
succeeds and the null-terminated decoder recovers the string. -/
def asciiz (s : Str) : Prop := ∀ b ∈ s, b < 128 ∧ b ≠ 0

instance asciizDecidable (s : Str) : Decidable (asciiz s) :=
  inferInstanceAs (Decidable (∀ b ∈ s, b < 128 ∧ b ≠ 0))

/-- C2 (amended): for an ingredient whose string fields are ASCII without
embedded zero bytes and of bounded length, whose numeric fields are in
signed 32-bit range (weight given as its binary32 bit pattern), and whose
four effect slots are fixed points of the dead-data normalisation of
`parseINGR`, decoding the encoding recovers every claimed field: id,
model, display name, icon, optional script, weight, value and all four
effect slots. -/
theorem ingr_roundtrip_c2_amended (g : Ingredient)
    (hid : asciiz g.id) (hmodel : asciiz g.model) (hname : asciiz g.name)
    (hicon : asciiz g.icon) (hscript : ∀ s, g.script = some s → asciiz s)
    (hidl : g.id.length < 2 ^ 20) (hmodell : g.model.length < 2 ^ 20)
    (hnamel : g.name.length < 2 ^ 20) (hiconl : g.icon.length < 2 ^ 20)
    (hscriptl : ∀ s, g.script = some s → s.length < 2 ^ 20)
    (hw : g.weight < 2 ^ 32) (hv : int32 g.value)
    (heff : ∀ i, i < 4 → slotInt32 (g.effects.get i))
    (hnorm : ∀ i, i < 4 →
      normSlot (g.effects.get i).effect (g.effects.get i).skill (g.effects.get i).attr
        = g.effects.get i) :
    decodeINGRbytes (packINGR g) =
      ⟨some g.id, some g.model, some g.name, some g.icon, g.script,
        some g.weight, some g.value, some g.effects⟩ := by
  have htG : tINGR.length = 4 := by decide
  have htN : tNAME.length = 4 := by decide
  have htM : tMODL.length = 4 := by decide
  have htF : tFNAM.length = 4 := by decide
  have htX : tITEX.length = 4 := by decide
  have htS : tSCRI.length = 4 := by decide
  have htI : tIRDT.length = 4 := by decide
  have heffset : (⟨slotAt (irdtData g) 0, slotAt (irdtData g) 1,
      slotAt (irdtData g) 2, slotAt (irdtData g) 3⟩ : Effects) = g.effects := by
    rw [(irdt_slot g 0 (by norm_num) (heff 0 (by norm_num))).trans (hnorm 0 (by norm_num)),
      (irdt_slot g 1 (by norm_num) (heff 1 (by norm_num))).trans (hnorm 1 (by norm_num)),
      (irdt_slot g 2 (by norm_num) (heff 2 (by norm_num))).trans (hnorm 2 (by norm_num)),
      (irdt_slot g 3 (by norm_num) (heff 3 (by norm_num))).trans (hnorm 3 (by norm_num))]
    rfl
  have hidp : parseString (packString g.id ++ [0]) = g.id :=
    parseString_packed _ (fun b hb => (hid b hb).1) (fun b hb => (hid b hb).2)
  have hmodelp : parseString (packString g.model ++ [0]) = g.model :=
    parseString_packed _ (fun b hb => (hmodel b hb).1) (fun b hb => (hmodel b hb).2)
  have hnamep : parseString (packString g.name ++ [0]) = g.name :=
    parseString_packed _ (fun b hb => (hname b hb).1) (fun b hb => (hname b hb).2)
  have hiconp : parseString (packString g.icon ++ [0]) = g.icon :=
    parseString_packed _ (fun b hb => (hicon b hb).1) (fun b hb => (hicon b hb).2)
  have hbid : (packString g.id ++ [0]).length < 2 ^ 32 := by
    simp only [packString, List.length_append, List.length_cons, List.length_nil]
    exact lt_2_32_of_len _ hidl
  have hbmodel : (packString g.model ++ [0]).length < 2 ^ 32 := by
    simp only [packString, List.length_append, List.length_cons, List.length_nil]
    exact lt_2_32_of_len _ hmodell
  have hbname : (packString g.name ++ [0]).length < 2 ^ 32 := by
    simp only [packString, List.length_append, List.length_cons, List.length_nil]
    exact lt_2_32_of_len _ hnamel
  have hbicon : (packString g.icon ++ [0]).length < 2 ^ 32 := by
    simp only [packString, List.length_append, List.length_cons, List.length_nil]
    exact lt_2_32_of_len _ hiconl
  have hbirdt : (irdtData g).length < 2 ^ 32 := by
    rw [irdtData_length]
    norm_num
  have hL31 : (payloadINGR g).length < 2 ^ 31 := by
    rw [show (2 : Nat) ^ 31 = 2147483648 from by norm_num]
    rw [show (2 : Nat) ^ 20 = 1048576 from by norm_num] at hidl hmodell hnamel hiconl
    cases hscr : g.script with
    | none =>
      simp only [payloadINGR, hscr, packStringSubRecord, packString, packIRDT,
        List.length_append, packLong_length, natToBytesLE_length, irdtData_length,
        htN, htM, htF, htX, htI, List.length_cons, List.length_nil]
      omega
    | some s =>
      have hsl := hscriptl s hscr
      rw [show (2 : Nat) ^ 20 = 1048576 from by norm_num] at hsl
      simp only [payloadINGR, hscr, packStringSubRecord, packString, packIRDT,
        List.length_append, packLong_length, natToBytesLE_length, irdtData_length,
        htN, htM, htF, htX, htI, htS, List.length_cons, List.length_nil]
      omega
  have hdec : decodeINGRbytes (packINGR g) = parseINGR (splitSubs (payloadINGR g)) := by
    unfold decodeINGRbytes
    have h1 : (packINGR g).drop 4
        = packLong (((payloadINGR g).length : Nat) : Int) ++
          (List.replicate 8 0 ++ payloadINGR g) := by
      unfold packINGR
      rw [show tINGR ++ packLong (((payloadINGR g).length : Nat) : Int) ++
          List.replicate 8 0 ++ payloadINGR g
          = tINGR ++ (packLong (((payloadINGR g).length : Nat) : Int) ++
            (List.replicate 8 0 ++ payloadINGR g)) from by simp [List.append_assoc]]
      exact List.drop_left' htG
    have h3 : bytesToNatLE (((packINGR g).drop 4).take 4) = (payloadINGR g).length := by
      rw [h1, List.take_left' (packLong_length _)]
      exact bytesToNat_packLong_ofNat _ hL31
    have h4 : (packINGR g).drop 16 = payloadINGR g := by
      unfold packINGR
      rw [show tINGR ++ packLong (((payloadINGR g).length : Nat) : Int) ++
          List.replicate 8 0 ++ payloadINGR g
          = (tINGR ++ packLong (((payloadINGR g).length : Nat) : Int) ++
            List.replicate 8 0) ++ payloadINGR g from by simp [List.append_assoc]]
      exact List.drop_left' (by simp [htG, packLong_length])
    rw [h3, h4, List.take_length]
  rw [hdec]
  cases hscr : g.script with
  | none =>
    have hp : payloadINGR g
        = tNAME ++ natToBytesLE 4 (packString g.id ++ [0]).length ++
            (packString g.id ++ [0]) ++
          (tMODL ++ natToBytesLE 4 (packString g.model ++ [0]).length ++
            (packString g.model ++ [0]) ++
          (tFNAM ++ natToBytesLE 4 (packString g.name ++ [0]).length ++
            (packString g.name ++ [0]) ++
          (tIRDT ++ natToBytesLE 4 (irdtData g).length ++ irdtData g ++
          (tITEX ++ natToBytesLE 4 (packString g.icon ++ [0]).length ++
            (packString g.icon ++ [0]) ++ [])))) := by
      unfold payloadINGR
      rw [hscr, packStringSubRecord_eq tNAME g.id hidl,
        packStringSubRecord_eq tMODL g.model hmodell,
        packStringSubRecord_eq tFNAM g.name hnamel, packIRDT_eq,
        packStringSubRecord_eq tITEX g.icon hiconl]
      simp only [List.append_assoc, List.append_nil]
    rw [hp, splitSubs_chunk tNAME _ _ htN hbid, splitSubs_chunk tMODL _ _ htM hbmodel,
      splitSubs_chunk tFNAM _ _ htF hbname, splitSubs_chunk tIRDT _ _ htI hbirdt,
      splitSubs_chunk tITEX _ _ htX hbicon,
      show splitSubs [] = [] from rfl]
    simp only [parseINGR, List.foldl_cons, List.foldl_nil, parseINGRsub_NAME,
      parseINGRsub_MODL, parseINGRsub_FNAM, parseINGRsub_IRDT, parseINGRsub_ITEX]
    unfold emptyPIngr
    rw [hidp, hmodelp, hnamep, hiconp, irdt_weight g hw, irdt_value g hv, heffset]
  | some s =>
    have hsa : asciiz s := hscript s hscr
    have hsl : s.length < 2 ^ 20 := hscriptl s hscr
    have hscriptp : parseString (packString s ++ [0]) = s :=
      parseString_packed _ (fun b hb => (hsa b hb).1) (fun b hb => (hsa b hb).2)
    have hbscript : (packString s ++ [0]).length < 2 ^ 32 := by
      simp only [packString, List.length_append, List.length_cons, List.length_nil]
      exact lt_2_32_of_len _ hsl
    have hp : payloadINGR g
        = tNAME ++ natToBytesLE 4 (packString g.id ++ [0]).length ++
            (packString g.id ++ [0]) ++
          (tMODL ++ natToBytesLE 4 (packString g.model ++ [0]).length ++
            (packString g.model ++ [0]) ++
          (tFNAM ++ natToBytesLE 4 (packString g.name ++ [0]).length ++
            (packString g.name ++ [0]) ++
          (tIRDT ++ natToBytesLE 4 (irdtData g).length ++ irdtData g ++
          (tITEX ++ natToBytesLE 4 (packString g.icon ++ [0]).length ++
            (packString g.icon ++ [0]) ++
          (tSCRI ++ natToBytesLE 4 (packString s ++ [0]).length ++
            (packString s ++ [0]) ++ []))))) := by
      unfold payloadINGR
      rw [hscr]
      dsimp only
      rw [packStringSubRecord_eq tNAME g.id hidl,
        packStringSubRecord_eq tMODL g.model hmodell,
        packStringSubRecord_eq tFNAM g.name hnamel, packIRDT_eq,
        packStringSubRecord_eq tITEX g.icon hiconl,
        packStringSubRecord_eq tSCRI s hsl]
      simp only [List.append_assoc, List.append_nil]
    rw [hp, splitSubs_chunk tNAME _ _ htN hbid, splitSubs_chunk tMODL _ _ htM hbmodel,
      splitSubs_chunk tFNAM _ _ htF hbname, splitSubs_chunk tIRDT _ _ htI hbirdt,
      splitSubs_chunk tITEX _ _ htX hbicon, splitSubs_chunk tSCRI _ _ htS hbscript,
      show splitSubs [] = [] from rfl]
    simp only [parseINGR, List.foldl_cons, List.foldl_nil, parseINGRsub_NAME,
      parseINGRsub_MODL, parseINGRsub_FNAM, parseINGRsub_IRDT, parseINGRsub_ITEX,
      parseINGRsub_SCRI]
    rw [hidp, hmodelp, hnamep, hiconp, hscriptp, irdt_weight g hw, irdt_value g hv, heffset]

/-- Concrete ingredient whose slot-0 effect stores a nonzero skill (5) and
attribute (7) for an effect id (1) that the normalisation table says uses
neither. -/
def ingrRaw : Ingredient :=
  ⟨[120], [109], [110], [105], none, 77, 3,
    ⟨⟨1, 5, 7⟩, inactiveSlot, inactiveSlot, inactiveSlot⟩, [102]⟩

/-- C2 counterexample: `ingrRaw` has ASCII string fields well within every
limit, yet decoding its encoding does not recover it — `parseINGR`
normalises the slot `(1, 5, 7)` to `(1, -1, -1)`, so the four effect
slots are not recovered verbatim. -/
theorem ingr_roundtrip_c2_counterexample :
    asciiz ingrRaw.id ∧ asciiz ingrRaw.model ∧ asciiz ingrRaw.name ∧ asciiz ingrRaw.icon ∧
      (decodeINGRbytes (packINGR ingrRaw)).effects? =
        some ⟨⟨1, -1, -1⟩, inactiveSlot, inactiveSlot, inactiveSlot⟩ ∧
      (decodeINGRbytes (packINGR ingrRaw)).effects? ≠ some ingrRaw.effects := by
  refine ⟨by decide, by decide, by decide, by decide, by decide, by decide⟩

/-- Concrete ingredient in fully normalised form: effect 17 keeps its
attribute, effect 21 keeps its skill, effect 3 keeps neither; it also
carries a script and a negative value. -/
def ingrNorm : Ingredient :=
  ⟨[120], [109], [110], [105], some [113, 114], 77, -3,
    ⟨⟨17, -1, 2⟩, ⟨21, 4, -1⟩, ⟨3, -1, -1⟩, inactiveSlot⟩, [102]⟩

/-- C2 witness: the amended round trip evaluated at `ingrNorm`. -/
theorem ingr_roundtrip_c2_amended_witness :
    decodeINGRbytes (packINGR ingrNorm) =
      ⟨some [120], some [109], some [110], some [105], some [113, 114],
        some 77, some (-3), some ingrNorm.effects⟩ :=
  ingr_roundtrip_c2_amended ingrNorm (by decide) (by decide) (by decide) (by decide)
    (by intro s hs
        injection hs with h
        subst h
        decide)
    (by decide) (by decide) (by decide) (by decide)
    (by intro s hs
        injection hs with h
        subst h
        decide)
    (by decide) (by decide) (by decide) (by decide)

/-! ## PluginAssembler: duplicate collapsing and re-attachment (claim C7) -/

/-- Python `dict`-backed grouping: append to an existing key's list,
otherwise add the new key at the end. -/
def groupInsert {κ : Type} [DecidableEq κ] (k : κ) (g : Ingredient) :
    List (κ × List Ingredient) → List (κ × List Ingredient)
  | [] => [(k, [g])]
  | p :: rest => if p.1 = k then (p.1, p.2 ++ [g]) :: rest else p :: groupInsert k g rest

/-- Group a list of ingredients by a key, in insertion order (the
`ingrs_by_model` / `by_effect` dict constructions in `main`). -/
def buildGroups {κ : Type} [DecidableEq κ] (key : Ingredient → κ)
    (l : List Ingredient) : List (κ × List Ingredient) :=
  l.foldl (fun m g => groupInsert (key g) g m) []

/-- From one effect-grouping, pick every group with at least two members:
its first member's id is the anchor, the remaining members are the dupes
that get stashed in `dupe_ingrs`. -/
def dupesFromEff (byEff : List (Effects × List Ingredient)) : List (Str × List Ingredient) :=
  byEff.filterMap (fun p =>
    match p.2 with
    | a :: b :: rest => some (a.id, b :: rest)
    | _ => none)

/-- Duplicate detection inside one model group (run only when the group
has more than one member). -/
def dupesOfGroup (l : List Ingredient) : List (Str × List Ingredient) :=
  if 1 < l.length then dupesFromEff (buildGroups (fun g => g.effects) l) else []

/-- `dupe_ingrs`: all duplicate groups found by grouping the deduplicated
ingredient set by model path and then by the full 4-slot effect tuple. -/
def dupeIngrs (byId : List Ingredient) : List (Str × List Ingredient) :=
  (buildGroups (fun g => g.model) byId).flatMap (fun p => dupesOfGroup p.2)

/-- All ids stashed as duplicates. -/
def allDupeIds (dupes : List (Str × List Ingredient)) : List Str :=
  dupes.flatMap (fun p => p.2.map (fun d => d.id))

/-- Delete every stashed duplicate id from the deduplicated ingredient
dict (`del ingrs_by_id[dupe['id']]`). -/
def removeDupes (byId : List Ingredient) (dupes : List (Str × List Ingredient)) :
    List Ingredient :=
  byId.filter (fun g => !(decide (g.id ∈ allDupeIds dupes)))

/-- Dict lookup by ingredient id (`shuffled_ingredients[k]`). -/
def lookupById (m : List Ingredient) (k : Str) : Option Ingredient :=
  match m with
  | [] => none
  | g :: rest => if g.id = k then some g else lookupById rest k

/-- Dict insertion by ingredient id (`shuffled_ingredients[k] = v`): an
existing key keeps its position, a new key is appended. -/
def insertById (g : Ingredient) : List Ingredient → List Ingredient
  | [] => [g]
  | x :: rest => if x.id = g.id then g :: rest else x :: insertById g rest

/-- `dict.update`: insert every entry of the second dict into the first. -/
def updateMap (m adds : List Ingredient) : List Ingredient :=
  adds.foldl (fun m' g => insertById g m') m

/-- Re-attach the dupes of one anchor: each dupe gets the anchor's current
effects array verbatim and is inserted under its own id; a missing anchor
would be a `KeyError` (`none`). -/
def reattachOne (m : List Ingredient) (anchor : Str) :
    List Ingredient → Option (List Ingredient)
  | [] => some m
  | d :: ds =>
    match lookupById m anchor with
    | some a => reattachOne (insertById { d with effects := a.effects } m) anchor ds
    | none => none

/-- The duplicate re-attachment loop at the end of `main`. -/
def reattach (m : List Ingredient) : List (Str × List Ingredient) → Option (List Ingredient)
  | [] => some m
  | p :: rest =>
    match reattachOne m p.1 p.2 with
    | some m' => reattach m' rest
    | none => none

/-- The ingredient-processing pipeline of `main` from the deduplicated
ingredient dict onwards: stash duplicates, partition into food/non-food,
shuffle each partition, merge, re-attach duplicates. -/
def processIngredients (foodset : List Str)
    (shF shN : Nat → List Ingredient → List Ingredient)
    (byId : List Ingredient) : Option (List Ingredient) :=
  match shuffle_ingredients shF
      ((removeDupes byId (dupeIngrs byId)).filter (fun g => isFoodIngr foodset g)),
    shuffle_ingredients shN
      ((removeDupes byId (dupeIngrs byId)).filter (fun g => !isFoodIngr foodset g)) with
  | some sf, some sn => reattach (updateMap sf sn) (dupeIngrs byId)
  | _, _ => none

/-! ## Dictionary lemmas for the re-attachment proof -/

theorem lookup_insertById (m : List Ingredient) (g : Ingredient) (k : Str) :
    lookupById (insertById g m) k = if g.id = k then some g else lookupById m k := by
  induction m with
  | nil =>
    by_cases h : g.id = k <;> simp [insertById, lookupById, h]
  | cons x rest ih =>
    by_cases hx : x.id = g.id
    · simp only [insertById, if_pos hx]
      by_cases hk : g.id = k
      · simp [lookupById, hk]
      · have hxk : ¬ x.id = k := fun hc => hk ((hx.symm.trans hc))
        simp [lookupById, hk, hxk]
    · simp only [insertById, if_neg hx]
      by_cases hxk : x.id = k
      · have hk : ¬ g.id = k := fun hc => hx (hxk.trans hc.symm)
        simp [lookupById, hxk, hk]
      · simp [lookupById, hxk, ih]

theorem lookup_mem_ids (m : List Ingredient) (k : Str) :
    (∃ v, lookupById m k = some v) ↔ k ∈ m.map (fun g => g.id) := by
  induction m with
  | nil => simp [lookupById]
  | cons x rest ih =>
    by_cases hx : x.id = k
    · simp [lookupById, hx]
    · simp only [lookupById, if_neg hx, List.map_cons, List.mem_cons, ih]
      constructor
      · intro h; exact Or.inr h
      · rintro (h | h)
        · exact absurd h.symm hx
        · exact h

theorem ids_insertById (m : List Ingredient) (g : Ingredient) (k : Str) :
    k ∈ (insertById g m).map (fun x => x.id) ↔
      k = g.id ∨ k ∈ m.map (fun x => x.id) := by
  induction m with
  | nil => simp [insertById]
  | cons x rest ih =>
    by_cases hx : x.id = g.id
    · simp only [insertById, if_pos hx, List.map_cons, List.mem_cons, ih]
      constructor
      · rintro (h | h)
        · exact Or.inl h
        · exact Or.inr (Or.inr h)
      · rintro (h | h | h)
        · exact Or.inl h
        · exact Or.inl (h.trans hx)
        · exact Or.inr h
    · simp only [insertById, if_neg hx, List.map_cons, List.mem_cons, ih]
      tauto

theorem ids_updateMap (m adds : List Ingredient) (k : Str) :
    k ∈ (updateMap m adds).map (fun x => x.id) ↔
      k ∈ m.map (fun x => x.id) ∨ k ∈ adds.map (fun x => x.id) := by
  induction adds generalizing m with
  | nil => simp [updateMap]
  | cons g rest ih =>
    simp only [updateMap, List.foldl_cons] at *
    rw [ih (insertById g m)]
    simp only [ids_insertById, List.map_cons, List.mem_cons]
    tauto


/-! ## Grouping lemmas -/

/-- The anchor id and dupe ids of one stashed duplicate group. -/
def keyIds (p : Str × List Ingredient) : List Str := p.1 :: p.2.map (fun d => d.id)

/-- All ingredients stored across the groups of a grouping dict. -/
def groupElems {κ : Type} (m : List (κ × List Ingredient)) : List Ingredient :=
  m.flatMap (fun p => p.2)

theorem groupElems_groupInsert {κ : Type} [DecidableEq κ] (k : κ) (g : Ingredient)
    (m : List (κ × List Ingredient)) :
    (groupElems (groupInsert k g m)).Perm (groupElems m ++ [g]) := by
  induction m with
  | nil => simp [groupInsert, groupElems]
  | cons p rest ih =>
    by_cases hp : p.1 = k
    · simp only [groupInsert, if_pos hp, groupElems, List.flatMap_cons]
      refine List.Perm.trans (List.Perm.of_eq (List.append_assoc p.2 [g] _)) ?_
      refine List.Perm.trans (List.Perm.append_left p.2 List.perm_append_comm) ?_
      exact List.Perm.of_eq (List.append_assoc p.2 _ [g]).symm
    · simp only [groupInsert, if_neg hp, groupElems, List.flatMap_cons]
      refine List.Perm.trans (List.Perm.append_left p.2 ih) ?_
      exact List.Perm.of_eq (List.append_assoc p.2 _ [g]).symm

theorem groupElems_buildGroups {κ : Type} [DecidableEq κ] (key : Ingredient → κ)
    (l : List Ingredient) : (groupElems (buildGroups key l)).Perm l := by
  suffices h : ∀ (xs : List Ingredient) (m : List (κ × List Ingredient)),
      (groupElems (xs.foldl (fun m g => groupInsert (key g) g m) m)).Perm
        (groupElems m ++ xs) by
    have h2 := h l []
    simpa [groupElems] using h2
  intro xs
  induction xs with
  | nil => intro m; simp
  | cons g rest ih =>
    intro m
    rw [List.foldl_cons]
    refine List.Perm.trans (ih _) ?_
    refine List.Perm.trans ((groupElems_groupInsert (key g) g m).append_right rest) ?_
    exact List.Perm.of_eq (by simp)

/-! ## Duplicate-selection lemmas -/

/-- The members of an effect group that are anchors or dupes: the whole
group when it has at least two members, nothing otherwise. -/
def selectedOf (p : Effects × List Ingredient) : List Ingredient :=
  match p.2 with
  | a :: b :: rest => a :: b :: rest
  | _ => []

/-- The ingredients selected as anchors or dupes inside one model group. -/
def selGroup (l : List Ingredient) : List Ingredient :=
  if 1 < l.length then (buildGroups (fun g => g.effects) l).flatMap selectedOf else []

theorem sel_ids_eq (byEff : List (Effects × List Ingredient)) :
    (byEff.flatMap selectedOf).map (fun g => g.id)
      = (dupesFromEff byEff).flatMap keyIds := by
  induction byEff with
  | nil => rfl
  | cons p rest ih =>
    rcases hp : p.2 with _ | ⟨a, _ | ⟨b, r⟩⟩
    · simp only [dupesFromEff, List.filterMap_cons, List.flatMap_cons, selectedOf, hp]
      simpa [dupesFromEff] using ih
    · simp only [dupesFromEff, List.filterMap_cons, List.flatMap_cons, selectedOf, hp]
      simpa [dupesFromEff] using ih
    · simp only [dupesFromEff, List.filterMap_cons, List.flatMap_cons, selectedOf, hp,
        List.map_append, List.map_cons, keyIds]
      rw [ih]
      simp [dupesFromEff, keyIds]

theorem sel_sublist (byEff : List (Effects × List Ingredient)) :
    List.Sublist (byEff.flatMap selectedOf) (byEff.flatMap (fun p => p.2)) := by
  induction byEff with
  | nil => exact List.Sublist.refl _
  | cons p rest ih =>
    simp only [List.flatMap_cons]
    refine List.Sublist.append ?_ ih
    rcases hp : p.2 with _ | ⟨a, _ | ⟨b, r⟩⟩ <;> simp [selectedOf, hp]

theorem subperm_append_both {α : Type} {l₁ l₂ r₁ r₂ : List α}
    (h1 : List.Subperm l₁ l₂) (h2 : List.Subperm r₁ r₂) :
    List.Subperm (l₁ ++ r₁) (l₂ ++ r₂) := by
  obtain ⟨u, hu, hsu⟩ := h1
  obtain ⟨v, hv, hsv⟩ := h2
  exact ⟨u ++ v, hu.append hv, hsu.append hsv⟩

theorem subperm_map_id {l₁ l₂ : List Ingredient} (h : List.Subperm l₁ l₂) :
    List.Subperm (l₁.map (fun g => g.id)) (l₂.map (fun g => g.id)) := by
  obtain ⟨u, hu, hsu⟩ := h
  exact ⟨u.map (fun g => g.id), hu.map _, hsu.map _⟩

theorem nodup_of_subperm {α : Type} {l₁ l₂ : List α} (h : List.Subperm l₁ l₂)
    (h2 : l₂.Nodup) : l₁.Nodup := by
  obtain ⟨u, hu, hsu⟩ := h
  exact hu.nodup_iff.mp (hsu.nodup h2)

theorem selGroup_subperm (l : List Ingredient) : List.Subperm (selGroup l) l := by
  unfold selGroup
  by_cases h : 1 < l.length
  · rw [if_pos h]
    exact ((sel_sublist _).subperm).trans (groupElems_buildGroups (fun g => g.effects) l).subperm
  · rw [if_neg h]
    exact List.nil_subperm

theorem selAll_subperm (byId : List Ingredient) :
    List.Subperm
      ((buildGroups (fun g => g.model) byId).flatMap (fun p => selGroup p.2)) byId := by
  have h1 : ∀ (G : List (Str × List Ingredient)),
      List.Subperm (G.flatMap (fun p => selGroup p.2)) (G.flatMap (fun p => p.2)) := by
    intro G
    induction G with
    | nil => exact List.nil_subperm
    | cons p rest ih =>
      simp only [List.flatMap_cons]
      exact subperm_append_both (selGroup_subperm p.2) ih
  exact (h1 _).trans (groupElems_buildGroups (fun g => g.model) byId).subperm

theorem dupeKeyIds_eq (byId : List Ingredient) :
    (dupeIngrs byId).flatMap keyIds
      = ((buildGroups (fun g => g.model) byId).flatMap (fun p => selGroup p.2)).map
          (fun g => g.id) := by
  unfold dupeIngrs
  have h1 : ∀ (G : List (Str × List Ingredient)),
      (G.flatMap (fun p => dupesOfGroup p.2)).flatMap keyIds
        = (G.flatMap (fun p => selGroup p.2)).map (fun g => g.id) := by
    intro G
    induction G with
    | nil => rfl
    | cons p rest ih =>
      simp only [List.flatMap_cons, List.flatMap_append, List.map_append]
      rw [ih]
      congr 1
      unfold dupesOfGroup selGroup
      by_cases h : 1 < p.2.length
      · rw [if_pos h, if_pos h]
        exact (sel_ids_eq _).symm
      · rw [if_neg h, if_neg h]
        rfl
  exact h1 _

theorem dupeKeyIds_nodup (byId : List Ingredient)
    (hnd : (byId.map (fun g => g.id)).Nodup) :
    ((dupeIngrs byId).flatMap keyIds).Nodup := by
  rw [dupeKeyIds_eq]
  exact nodup_of_subperm (subperm_map_id (selAll_subperm byId)) hnd

theorem anchor_mem_byId (byId : List Ingredient) (p : Str × List Ingredient)
    (hp : p ∈ dupeIngrs byId) : ∃ a ∈ byId, a.id = p.1 := by
  have h1 : p.1 ∈ (dupeIngrs byId).flatMap keyIds := by
    refine List.mem_flatMap.mpr ⟨p, hp, ?_⟩
    exact List.mem_cons_self _ _
  rw [dupeKeyIds_eq] at h1
  obtain ⟨a, ha, hid⟩ := List.mem_map.mp h1
  exact ⟨a, (selAll_subperm byId).subset ha, hid⟩

theorem allDupeIds_sub_flat (dupes : List (Str × List Ingredient)) :
    ∀ k ∈ allDupeIds dupes, k ∈ dupes.flatMap keyIds := by
  intro k hk
  obtain ⟨p, hp, hkp⟩ := List.mem_flatMap.mp hk
  exact List.mem_flatMap.mpr ⟨p, hp, List.mem_cons_of_mem _ hkp⟩

theorem anchors_not_dupes (dupes : List (Str × List Ingredient))
    (hnd : (dupes.flatMap keyIds).Nodup) :
    ∀ p ∈ dupes, p.1 ∉ allDupeIds dupes := by
  induction dupes with
  | nil => simp
  | cons q rest ih =>
    rw [List.flatMap_cons, List.nodup_append] at hnd
    obtain ⟨hq, hrest, hdisj⟩ := hnd
    intro p hp hmem
    rw [show allDupeIds (q :: rest)
      = q.2.map (fun d => d.id) ++ allDupeIds rest from rfl] at hmem
    rcases List.mem_cons.mp hp with rfl | hp'
    · rcases List.mem_append.mp hmem with h1 | h1
      · exact (List.nodup_cons.mp hq).1 h1
      · exact hdisj (List.mem_cons_self _ _) (allDupeIds_sub_flat rest _ h1)
    · rcases List.mem_append.mp hmem with h1 | h1
      · have hpin : p.1 ∈ rest.flatMap keyIds := by
          refine List.mem_flatMap.mpr ⟨p, hp', List.mem_cons_self _ _⟩
        exact hdisj (List.mem_cons_of_mem _ h1) hpin
      · exact ih hrest p hp' h1

/-! ## Re-attachment correctness -/

theorem reattachOne_ok (anchor : Str) (ds : List Ingredient) :
    ∀ (m : List Ingredient) (a : Ingredient),
      lookupById m anchor = some a →
      (∀ d ∈ ds, d.id ≠ anchor) →
      ((ds.map (fun d => d.id)).Nodup) →
      ∃ m', reattachOne m anchor ds = some m' ∧
        (∀ k, (∀ d ∈ ds, k ≠ d.id) → lookupById m' k = lookupById m k) ∧
        (∀ d ∈ ds, lookupById m' d.id = some { d with effects := a.effects }) := by
  induction ds with
  | nil =>
    intro m a ha _ _
    exact ⟨m, rfl, fun k _ => rfl, by simp⟩
  | cons d ds' ih =>
    intro m a ha hne hnd
    have hda : d.id ≠ anchor := hne d (List.mem_cons_self d ds')
    have hstep : reattachOne m anchor (d :: ds')
        = reattachOne (insertById { d with effects := a.effects } m) anchor ds' := by
      simp only [reattachOne, ha]
    have hlk1 : ∀ k, lookupById (insertById { d with effects := a.effects } m) k
        = if d.id = k then some { d with effects := a.effects } else lookupById m k := by
      intro k
      exact lookup_insertById m _ k
    have ha1 : lookupById (insertById { d with effects := a.effects } m) anchor = some a := by
      rw [hlk1, if_neg hda, ha]
    obtain ⟨m', hm', hframe, hset⟩ := ih (insertById { d with effects := a.effects } m) a ha1
      (fun x hx => hne x (List.mem_cons_of_mem _ hx))
      (by simpa using (List.nodup_cons.mp (by simpa using hnd)).2)
    refine ⟨m', by rw [hstep, hm'], ?_, ?_⟩
    · intro k hk
      rw [hframe k (fun x hx => hk x (List.mem_cons_of_mem _ hx)), hlk1,
        if_neg (fun hc => hk d (List.mem_cons_self d ds') hc.symm)]
    · intro x hx
      rcases List.mem_cons.mp hx with rfl | hx'
      · have hnotin : x.id ∉ ds'.map (fun d => d.id) :=
          (List.nodup_cons.mp (by simpa using hnd)).1
        rw [hframe x.id (fun y hy hc => hnotin (hc ▸ List.mem_map_of_mem (fun d : Ingredient => d.id) hy)),
          hlk1, if_pos rfl]
      · exact hset x hx'

theorem reattach_ok (dupes : List (Str × List Ingredient)) :
    ∀ (m : List Ingredient),
      ((dupes.flatMap keyIds).Nodup) →
      (∀ p ∈ dupes, ∃ a, lookupById m p.1 = some a) →
      (∀ p ∈ dupes, ∀ d ∈ p.2, lookupById m d.id = none) →
      ∃ final, reattach m dupes = some final ∧
        (∀ k, k ∉ allDupeIds dupes → lookupById final k = lookupById m k) ∧
        (∀ p ∈ dupes, ∀ d ∈ p.2, ∃ a, lookupById m p.1 = some a ∧
          lookupById final d.id = some { d with effects := a.effects }) := by
  induction dupes with
  | nil =>
    intro m _ _ _
    exact ⟨m, rfl, fun k _ => rfl, by simp⟩
  | cons q rest ih =>
    intro m hnd hanch hfresh
    rw [List.flatMap_cons, List.nodup_append] at hnd
    obtain ⟨hq, hrest, hdisj⟩ := hnd
    obtain ⟨a, ha⟩ := hanch q (List.mem_cons_self q rest)
    have hqnd := List.nodup_cons.mp hq
    have hone := reattachOne_ok q.1 q.2 m a ha
      (fun d hd hc => hqnd.1 (hc ▸ List.mem_map_of_mem (fun d : Ingredient => d.id) hd))
      hqnd.2
    obtain ⟨m1, hm1, hframe1, hset1⟩ := hone
    have hanch' : ∀ p ∈ rest, ∃ a', lookupById m1 p.1 = some a' := by
      intro p hp
      obtain ⟨a', ha'⟩ := hanch p (List.mem_cons_of_mem _ hp)
      refine ⟨a', ?_⟩
      rw [hframe1 p.1 ?_, ha']
      intro d hd hc
      refine hdisj (List.mem_cons_of_mem _ (hc ▸ List.mem_map_of_mem (fun d : Ingredient => d.id) hd)) ?_
      exact List.mem_flatMap.mpr ⟨p, hp, List.mem_cons_self _ _⟩
    have hfresh' : ∀ p ∈ rest, ∀ d ∈ p.2, lookupById m1 d.id = none := by
      intro p hp d hd
      rw [hframe1 d.id ?_]
      · exact hfresh p (List.mem_cons_of_mem _ hp) d hd
      · intro x hx hc
        refine hdisj (List.mem_cons_of_mem _ (hc ▸ List.mem_map_of_mem (fun d : Ingredient => d.id) hx)) ?_
        exact List.mem_flatMap.mpr ⟨p, hp, List.mem_cons_of_mem _
          (List.mem_map_of_mem (fun d : Ingredient => d.id) hd)⟩
    obtain ⟨final, hfin, hframe2, hset2⟩ := ih m1 hrest hanch' hfresh'
    have hstep : reattach m (q :: rest) = some final := by
      simp only [reattach, hm1, hfin]
    refine ⟨final, hstep, ?_, ?_⟩
    · intro k hk
      have hk1 : k ∉ allDupeIds rest := fun hc =>
        hk (List.mem_append.mpr (Or.inr hc))
      have hk2 : ∀ d ∈ q.2, k ≠ d.id := by
        intro d hd hc
        exact hk (List.mem_append.mpr (Or.inl (hc ▸ List.mem_map_of_mem (fun d : Ingredient => d.id) hd)))
      rw [hframe2 k hk1, hframe1 k hk2]
    · intro p hp d hd
      rcases List.mem_cons.mp hp with rfl | hp'
      · refine ⟨a, ha, ?_⟩
        have hdid : d.id ∉ allDupeIds rest := by
          intro hc
          refine hdisj (List.mem_cons_of_mem _ (List.mem_map_of_mem (fun d : Ingredient => d.id) hd)) ?_
          exact allDupeIds_sub_flat rest _ hc
        rw [hframe2 d.id hdid]
        exact hset1 d hd
      · obtain ⟨a', ha', hd'⟩ := hset2 p hp' d hd
        refine ⟨a', ?_, hd'⟩
        rw [← ha']
        symm
        refine hframe1 p.1 ?_
        intro x hx hc
        refine hdisj (List.mem_cons_of_mem _ (hc ▸ List.mem_map_of_mem (fun d : Ingredient => d.id) hx)) ?_
        exact List.mem_flatMap.mpr ⟨p, hp', List.mem_cons_self _ _⟩

theorem shuffle_ids_perm (sh : Nat → List Ingredient → List Ingredient)
    (hsh : ∀ (n : Nat) (l : List Ingredient), (sh n l).Perm l)
    (inp out : List Ingredient) (hout : shuffle_ingredients sh inp = some out) :
    (out.map (fun g => g.id)).Perm (inp.map (fun g => g.id)) := by
  have h := (shuffle_ingredients_erase_perm sh hsh inp out hout).map (fun g => g.id)
  rw [List.map_map, List.map_map] at h
  exact h

/-- C7: duplicate consistency.  For any run of the ingredient-processing
pipeline that completes, every held-aside member of a duplicate group
(same model path, same full 4-slot effect tuple before redistribution)
ends up with exactly the representative's final effects array, so the
effect arrays of all group members are pairwise identical in the output.
The id-uniqueness hypothesis is the defining property of the
`ingrs_by_id` dict the pipeline starts from. -/
theorem dupe_consistency_c7 (foodset : List Str)
    (shF shN : Nat → List Ingredient → List Ingredient)
    (hshF : ∀ (n : Nat) (l : List Ingredient), (shF n l).Perm l)
    (hshN : ∀ (n : Nat) (l : List Ingredient), (shN n l).Perm l)
    (byId final : List Ingredient)
    (hnd : (byId.map (fun g => g.id)).Nodup)
    (hrun : processIngredients foodset shF shN byId = some final) :
    ∀ p ∈ dupeIngrs byId, ∀ d ∈ p.2,
      ∃ a, lookupById final p.1 = some a ∧
        lookupById final d.id = some { d with effects := a.effects } := by
  cases hsf : shuffle_ingredients shF
      ((removeDupes byId (dupeIngrs byId)).filter (fun g => isFoodIngr foodset g)) with
  | none =>
    unfold processIngredients at hrun
    rw [hsf] at hrun
    exact absurd hrun (by simp)
  | some sf =>
    cases hsn : shuffle_ingredients shN
        ((removeDupes byId (dupeIngrs byId)).filter (fun g => !isFoodIngr foodset g)) with
    | none =>
      unfold processIngredients at hrun
      rw [hsf, hsn] at hrun
      exact absurd hrun (by simp)
    | some sn =>
      rw [show processIngredients foodset shF shN byId
          = reattach (updateMap sf sn) (dupeIngrs byId) from by
        unfold processIngredients
        rw [hsf, hsn]] at hrun
      have hkeys := dupeKeyIds_nodup byId hnd
      have hidsf := shuffle_ids_perm shF hshF _ sf hsf
      have hidsn := shuffle_ids_perm shN hshN _ sn hsn
      have hm0mem : ∀ k : Str, k ∈ (updateMap sf sn).map (fun g => g.id) ↔
          k ∈ (removeDupes byId (dupeIngrs byId)).map (fun g => g.id) := by
        intro k
        rw [ids_updateMap, hidsf.mem_iff, hidsn.mem_iff]
        constructor
        · rintro (h | h) <;>
            (obtain ⟨g, hg, rfl⟩ := List.mem_map.mp h
             exact List.mem_map_of_mem _ (List.mem_filter.mp hg).1)
        · intro h
          obtain ⟨g, hg, rfl⟩ := List.mem_map.mp h
          by_cases hf : isFoodIngr foodset g = true
          · exact Or.inl (List.mem_map_of_mem _ (List.mem_filter.mpr ⟨hg, hf⟩))
          · exact Or.inr (List.mem_map_of_mem _ (List.mem_filter.mpr ⟨hg, by simpa using hf⟩))
      have hremove : ∀ g ∈ removeDupes byId (dupeIngrs byId),
          g ∈ byId ∧ g.id ∉ allDupeIds (dupeIngrs byId) := by
        intro g hg
        have h := List.mem_filter.mp hg
        exact ⟨h.1, by simpa using h.2⟩
      have hremove2 : ∀ g ∈ byId, g.id ∉ allDupeIds (dupeIngrs byId) →
          g ∈ removeDupes byId (dupeIngrs byId) := by
        intro g hg hnot
        exact List.mem_filter.mpr ⟨hg, by simpa using hnot⟩
      have hanch : ∀ p ∈ dupeIngrs byId, ∃ a', lookupById (updateMap sf sn) p.1 = some a' := by
        intro p hp
        obtain ⟨a0, ha0, haid⟩ := anchor_mem_byId byId p hp
        have hnotd : a0.id ∉ allDupeIds (dupeIngrs byId) := by
          rw [haid]
          exact anchors_not_dupes _ hkeys p hp
        have hinids : p.1 ∈ (removeDupes byId (dupeIngrs byId)).map (fun g => g.id) := by
          rw [← haid]
          exact List.mem_map_of_mem _ (hremove2 a0 ha0 hnotd)
        rw [← hm0mem] at hinids
        exact (lookup_mem_ids _ p.1).mpr hinids
      have hfresh : ∀ p ∈ dupeIngrs byId, ∀ d ∈ p.2,
          lookupById (updateMap sf sn) d.id = none := by
        intro p hp d hd
        cases hlk : lookupById (updateMap sf sn) d.id with
        | none => rfl
        | some v =>
          exfalso
          have hids : d.id ∈ (updateMap sf sn).map (fun g => g.id) :=
            (lookup_mem_ids _ d.id).mp ⟨v, hlk⟩
          rw [hm0mem] at hids
          obtain ⟨g, hg, hgid⟩ := List.mem_map.mp hids
          have hgnot := (hremove g hg).2
          rw [hgid] at hgnot
          exact hgnot (List.mem_flatMap.mpr
            ⟨p, hp, List.mem_map_of_mem (fun d : Ingredient => d.id) hd⟩)
      obtain ⟨final', hfin', hframe, hconc⟩ :=
        reattach_ok (dupeIngrs byId) (updateMap sf sn) hkeys hanch hfresh
      rw [hfin'] at hrun
      have hff : final' = final := Option.some.inj hrun
      subst hff
      intro p hp d hd
      obtain ⟨a, ha, hdid⟩ := hconc p hp d hd
      refine ⟨a, ?_, hdid⟩
      rw [hframe p.1 (anchors_not_dupes _ hkeys p hp), ha]

/-- Twin ingredient 1: id "1", shared model and effects with its twin. -/
def ingrTwinA : Ingredient :=
  mkIngr [49] ⟨⟨5, -1, -1⟩, inactiveSlot, inactiveSlot, inactiveSlot⟩

/-- Twin ingredient 2: id "2", shared model and effects with its twin. -/
def ingrTwinB : Ingredient :=
  mkIngr [50] ⟨⟨5, -1, -1⟩, inactiveSlot, inactiveSlot, inactiveSlot⟩

/-- C7 witness: the duplicate-consistency theorem evaluated on a two-twin
run of the pipeline under identity shuffle draws. -/
theorem dupe_consistency_c7_witness :
    ∃ a, lookupById [ingrTwinA, ingrTwinB] ingrTwinA.id = some a ∧
      lookupById [ingrTwinA, ingrTwinB] ingrTwinB.id =
        some { ingrTwinB with effects := a.effects } := by
  have h := dupe_consistency_c7 [] idSh idSh
    (fun _ l => List.Perm.refl l) (fun _ l => List.Perm.refl l)
    [ingrTwinA, ingrTwinB] [ingrTwinA, ingrTwinB] (by decide) (by decide)
  exact h ⟨[49], [ingrTwinB]⟩ (by decide) ingrTwinB (by decide)
